import Mathlib

/-!
Verification of the 445Project data-collection core against its specification.

The Python source is shallowly embedded:
* timestamps are `Int` (seconds); probabilities and prices are `ℚ`;
* Python generators/loops become recursive functions on lists;
* a Python function that can raise becomes `Option`/`Except`.

Embedded components (file ↦ Lean definitions):
* `scripts/fetch_cb_history.py`: `daterange_chunks` (the chunk planner),
  `sortCandles`/`run_backfill` (the per-chunk sort/append loop of `main`);
* `polymarket_btc/api.py`: `end_date`, `get_all_btc_daily_events`,
  `get_latest_btc_daily_event`, `_as_list`, `summarize_event`
  (with a `PyVal` model of Python/JSON values and `json_loads` for
  the standard-library `json.loads`);
* `scripts/resample_prices_history.py`: `resample_df` (with bucket means
  modelling `pandas.resample(...).mean()`, `ffill` for `Series.ffill` and
  `interpolate` for `Series.interpolate(method="linear")`), `elapsed_hours`
  for the annotation added by `process_files`.
-/

/-! ## ChunkPlanner: `daterange_chunks` from `scripts/fetch_cb_history.py`

Python:
```
def daterange_chunks(start, end, granularity):
    max_span = timedelta(seconds=granularity * 300)
    cur = start
    while cur < end:
        nxt = min(cur + max_span, end)
        yield cur, nxt
        cur = nxt
```
The `while` loop is embedded with an explicit iteration bound (`fuel`).
When `0 < granularity` every iteration advances `cur` by at least one
second, so `(end - start).toNat` iterations always suffice and the fuel
never runs out; for `granularity ≤ 0` the Python loop does not terminate.
-/

def chunksAux (fuel : Nat) (cur stop span : Int) : List (Int × Int) :=
  match fuel with
  | 0 => []
  | fuel + 1 =>
    if cur < stop then
      (cur, min (cur + span) stop) :: chunksAux fuel (min (cur + span) stop) stop span
    else []

def daterange_chunks (start stop : Int) (granularity : Int) : List (Int × Int) :=
  chunksAux (stop - start).toNat start stop (granularity * 300)

/-- `TilesFrom s e l`: the intervals of `l` exactly tile `[s, e)` in order:
each interval is nonempty, starts where the previous one ended, and the
last one ends at `e`. -/
def TilesFrom : Int → Int → List (Int × Int) → Prop
  | s, e, [] => s = e
  | s, e, (a, b) :: rest => a = s ∧ s < b ∧ b ≤ e ∧ TilesFrom b e rest

theorem chunksAux_spec (fuel : Nat) :
    ∀ (cur stop span : Int), 0 < span → cur ≤ stop → (stop - cur).toNat ≤ fuel →
      TilesFrom cur stop (chunksAux fuel cur stop span) ∧
      ∀ p ∈ chunksAux fuel cur stop span, p.2 - p.1 ≤ span := by
  induction fuel with
  | zero =>
    intro cur stop span _ hle hfuel
    have : cur = stop := by omega
    simp [chunksAux, TilesFrom, this]
  | succ f ih =>
    intro cur stop span hsp hle hfuel
    by_cases hlt : cur < stop
    · have hmin : cur < min (cur + span) stop := by omega
      have hmin2 : min (cur + span) stop ≤ stop := by omega
      have hrec := ih (min (cur + span) stop) stop span hsp hmin2 (by omega)
      refine ⟨?_, ?_⟩
      · simp only [chunksAux, if_pos hlt]
        exact ⟨rfl, hmin, hmin2, hrec.1⟩
      · intro p hp
        simp only [chunksAux, if_pos hlt, List.mem_cons] at hp
        rcases hp with h | h
        · subst h; simp; omega
        · exact hrec.2 p h
    · have : cur = stop := by omega
      simp [chunksAux, if_neg hlt, TilesFrom, this]

theorem TilesFrom.first_eq {s e : Int} {l : List (Int × Int)} (h : TilesFrom s e l) :
    ∀ p, l.head? = some p → p.1 = s := by
  cases l with
  | nil => intro p hp; simp at hp
  | cons a rest =>
    intro p hp
    simp only [List.head?] at hp
    cases hp
    obtain ⟨h1, _, _, _⟩ := h
    exact h1

theorem TilesFrom.last_eq {s e : Int} {l : List (Int × Int)} (h : TilesFrom s e l) :
    ∀ p, l.getLast? = some p → p.2 = e := by
  induction l generalizing s with
  | nil => intro p hp; simp at hp
  | cons a rest ih =>
    intro p hp
    obtain ⟨h1, h2, h3, h4⟩ := h
    cases rest with
    | nil =>
      simp only [List.getLast?] at hp
      cases hp
      cases h4
      rfl
    | cons b rest2 =>
      rw [List.getLast?_cons_cons] at hp
      exact ih h4 p hp

theorem TilesFrom.adjacent {s e : Int} {l : List (Int × Int)} (h : TilesFrom s e l) :
    ∀ i a b, l.get? i = some a → l.get? (i + 1) = some b → a.2 = b.1 := by
  induction l generalizing s with
  | nil => intro i a b ha _; simp at ha
  | cons x rest ih =>
    intro i a b ha hb
    obtain ⟨h1, h2, h3, h4⟩ := h
    cases i with
    | zero =>
      simp only [List.get?] at ha hb
      cases ha
      cases rest with
      | nil => simp at hb
      | cons y rest2 =>
        simp only [List.get?] at hb
        cases hb
        obtain ⟨hy, _, _, _⟩ := h4
        exact hy.symm
    | succ j =>
      simp only [List.get?] at ha hb
      exact ih h4 j a b ha hb

theorem TilesFrom.bounds {s e : Int} {l : List (Int × Int)} (h : TilesFrom s e l) :
    ∀ p ∈ l, s ≤ p.1 ∧ p.2 ≤ e := by
  induction l generalizing s with
  | nil => intro p hp; simp at hp
  | cons a rest ih =>
    intro p hp
    obtain ⟨h1, h2, h3, h4⟩ := h
    rcases List.mem_cons.mp hp with h | h
    · subst h; constructor
      · omega
      · exact h3
    · have := ih h4 p h
      have hb : a.2 ≤ p.1 := this.1
      constructor
      · omega
      · exact this.2

theorem TilesFrom.ne_nil {s e : Int} {l : List (Int × Int)} (h : TilesFrom s e l)
    (hlt : s < e) : l ≠ [] := by
  cases l with
  | nil => cases h; omega
  | cons a rest => simp

theorem TilesFrom.pos {s e : Int} {l : List (Int × Int)} (h : TilesFrom s e l) :
    ∀ p ∈ l, p.1 < p.2 := by
  induction l generalizing s with
  | nil => intro p hp; simp at hp
  | cons a rest ih =>
    intro p hp
    obtain ⟨h1, h2, h3, h4⟩ := h
    rcases List.mem_cons.mp hp with h | h
    · subst h; omega
    · exact ih h4 p h

theorem daterange_chunks_tilesFrom {start stop granularity : Int}
    (hg : 0 < granularity) (hle : start ≤ stop) :
    TilesFrom start stop (daterange_chunks start stop granularity) ∧
    ∀ p ∈ daterange_chunks start stop granularity, p.2 - p.1 ≤ granularity * 300 :=
  chunksAux_spec (stop - start).toNat start stop (granularity * 300)
    (by positivity) hle (by omega)

/-- C1. For every `start < end`, sample period `granularity > 0` and the
hard-coded `maxPointsPerRequest = 300`, the interval sequence produced by
`daterange_chunks` tiles `[start, end)` exactly once: it is nonempty, the
first interval starts at `start`, the last ends at `end`, the `chunkEnd` of
each interval equals the `chunkStart` of the next (no gap, no overlap), and
every interval is nonempty with width at most `granularity * 300`. -/
theorem daterange_chunks_tiles (start stop granularity : Int)
    (hg : 0 < granularity) (hlt : start < stop) :
    daterange_chunks start stop granularity ≠ [] ∧
    (∀ p, (daterange_chunks start stop granularity).head? = some p → p.1 = start) ∧
    (∀ p, (daterange_chunks start stop granularity).getLast? = some p → p.2 = stop) ∧
    (∀ i a b, (daterange_chunks start stop granularity).get? i = some a →
      (daterange_chunks start stop granularity).get? (i + 1) = some b → a.2 = b.1) ∧
    (∀ p ∈ daterange_chunks start stop granularity,
      p.1 < p.2 ∧ p.2 - p.1 ≤ granularity * 300) := by
  obtain ⟨ht, hw⟩ := daterange_chunks_tilesFrom hg (le_of_lt hlt)
  exact ⟨ht.ne_nil hlt, ht.first_eq, ht.last_eq, ht.adjacent,
    fun p hp => ⟨ht.pos p hp, hw p hp⟩⟩

/-- Witness for C1 at `start = 0`, `end = 700`, `granularity = 1`
(chunks `(0,300), (300,600), (600,700)`). -/
theorem daterange_chunks_tiles_witness :
    daterange_chunks 0 700 1 = [(0, 300), (300, 600), (600, 700)] ∧
    (daterange_chunks 0 700 1 ≠ [] ∧
    (∀ p, (daterange_chunks 0 700 1).head? = some p → p.1 = 0) ∧
    (∀ p, (daterange_chunks 0 700 1).getLast? = some p → p.2 = 700) ∧
    (∀ i a b, (daterange_chunks 0 700 1).get? i = some a →
      (daterange_chunks 0 700 1).get? (i + 1) = some b → a.2 = b.1) ∧
    (∀ p ∈ daterange_chunks 0 700 1, p.1 < p.2 ∧ p.2 - p.1 ≤ 1 * 300)) :=
  ⟨by decide, daterange_chunks_tiles 0 700 1 (by decide) (by decide)⟩

/-- C6, counterexample. The spec claims the planner fails with
`InvalidRangeError` when `start ≥ end`; the source has no such check and no
`raise` at all: on `start = 10 ≥ 5 = end` the `while` guard is immediately
false and the generator yields the empty sequence of intervals instead of
failing. -/
theorem daterange_chunks_no_error_cex : daterange_chunks 10 5 300 = [] := by decide

/-- C6, amended. For every `start ≥ end` the chunk planner returns the
empty sequence of intervals; no error is raised. -/
theorem daterange_chunks_empty_of_ge (start stop granularity : Int)
    (h : stop ≤ start) : daterange_chunks start stop granularity = [] := by
  have : (stop - start).toNat = 0 := by omega
  rw [daterange_chunks, this]
  rfl

/-- Witness for the amended C6 at `start = 10`, `end = 5`. -/
theorem daterange_chunks_empty_of_ge_witness :
    (5 : Int) ≤ 10 ∧ daterange_chunks 10 5 300 = [] :=
  ⟨by decide, daterange_chunks_empty_of_ge 10 5 300 (by decide)⟩

/-! ## HistoryBackfiller: the fetch loop of `main` in `scripts/fetch_cb_history.py`

Python (the per-chunk body of `main`):
```
for chunk_start, chunk_end in daterange_chunks(start_dt, end_dt, granularity):
    candles = fetch_cb_candles(product, chunk_start, chunk_end, granularity)
    candles = sorted(candles, key=lambda c: c[0])
    rows = [...]            # one row per candle, in the sorted order
    append_rows(out_path, rows)
```
`fetch_cb_candles` is an external HTTP collaborator, so it is a function
parameter here; a raised exception is `Except.error`.  `run_backfill`
returns the rows appended to the output file before the run ended together
with the first fetch error (if any); an uncaught exception aborts the loop,
so nothing after the first error is fetched or appended. -/

structure Candle where
  time : Int
  low : ℚ
  high : ℚ
  opn : ℚ
  close : ℚ
  volume : ℚ
deriving DecidableEq, Repr

/-- The relation used by `sorted(candles, key=lambda c: c[0])`. -/
def candleLE (a b : Candle) : Prop := a.time ≤ b.time

instance : DecidableRel candleLE := fun a b => inferInstanceAs (Decidable (a.time ≤ b.time))

instance : IsTotal Candle candleLE := ⟨fun a b => le_total a.time b.time⟩

instance : IsTrans Candle candleLE := ⟨fun _ _ _ => le_trans⟩

/-- Python `sorted(candles, key=lambda c: c[0])` (a stable sort by timestamp). -/
def sortCandles (l : List Candle) : List Candle := l.insertionSort candleLE

def run_backfill (fetch : Int × Int → Except String (List Candle)) :
    List (Int × Int) → List Candle × Option String
  | [] => ([], none)
  | c :: rest =>
    match fetch c with
    | .error e => ([], some e)
    | .ok candles =>
      match run_backfill fetch rest with
      | (more, err) => (sortCandles candles ++ more, err)

theorem run_backfill_ok (f : Int × Int → List Candle) :
    ∀ chunks : List (Int × Int),
      run_backfill (fun c => Except.ok (f c)) chunks =
        (chunks.flatMap (fun c => sortCandles (f c)), none) := by
  intro chunks
  induction chunks with
  | nil => rfl
  | cons c rest ih => simp [run_backfill, ih]

theorem sortCandles_sorted (l : List Candle) :
    List.Pairwise candleLE (sortCandles l) :=
  List.sorted_insertionSort candleLE l

theorem mem_sortCandles {l : List Candle} {x : Candle} :
    x ∈ sortCandles l ↔ x ∈ l :=
  List.mem_insertionSort candleLE

theorem sortCandles_pairwise_lt {l : List Candle}
    (h : (l.map Candle.time).Nodup) :
    List.Pairwise (fun a b => a.time < b.time) (sortCandles l) := by
  have hperm : List.Perm (sortCandles l) l := List.perm_insertionSort candleLE l
  have hnd : ((sortCandles l).map Candle.time).Nodup :=
    (hperm.map Candle.time).nodup_iff.mpr h
  have hne : List.Pairwise (fun a b : Candle => a.time ≠ b.time) (sortCandles l) :=
    List.pairwise_map.mp hnd
  exact ((sortCandles_sorted l).and hne).imp fun hab => lt_of_le_of_ne hab.1 hab.2

theorem flatMap_sortCandles_pairwise_lt
    (f : Int × Int → List Candle) {s e : Int} {chunks : List (Int × Int)}
    (ht : TilesFrom s e chunks)
    (hin : ∀ c ∈ chunks, ∀ cd ∈ f c, c.1 ≤ cd.time ∧ cd.time < c.2)
    (hnodup : ∀ c ∈ chunks, ((f c).map Candle.time).Nodup) :
    List.Pairwise (fun a b => a.time < b.time)
      (chunks.flatMap (fun c => sortCandles (f c))) := by
  induction chunks generalizing s with
  | nil => simp
  | cons c rest ih =>
    obtain ⟨h1, h2, h3, h4⟩ := ht
    rw [List.flatMap_cons, List.pairwise_append]
    refine ⟨sortCandles_pairwise_lt (hnodup c (by simp)),
      ih h4 (fun d hd => hin d (List.mem_cons_of_mem c hd))
        (fun d hd => hnodup d (List.mem_cons_of_mem c hd)), ?_⟩
    intro a ha b hb
    have ha' : a ∈ f c := mem_sortCandles.mp ha
    have hac : a.time < c.2 := (hin c (by simp) a ha').2
    rw [List.mem_flatMap] at hb
    obtain ⟨d, hd, hbd⟩ := hb
    have hb' : b ∈ f d := mem_sortCandles.mp hbd
    have hdb : d.1 ≤ b.time := (hin d (List.mem_cons_of_mem c hd) b hb').1
    have hbound := h4.bounds d hd
    omega

/-- C2, counterexample. The spec claims the backfiller removes
exact-timestamp duplicates at chunk boundaries; the source never
deduplicates.  With two adjacent chunks `[0,100)` and `[100,200)` whose
fetched responses both contain the shared boundary timestamp `100`, both
copies are appended, so the output `[100, 100, 150]` is neither strictly
ascending nor duplicate-free. -/
theorem backfill_dup_cex :
    (run_backfill
        (fun c => Except.ok
          (if c.1 = 0 then [⟨100, 0, 0, 0, 0, 0⟩]
           else [⟨150, 0, 0, 0, 0, 0⟩, ⟨100, 0, 0, 0, 0, 0⟩]))
        [(0, 100), (100, 200)]).1.map Candle.time = [100, 100, 150] ∧
    ¬ List.Pairwise (fun a b => a < b)
      ((run_backfill
        (fun c => Except.ok
          (if c.1 = 0 then [⟨100, 0, 0, 0, 0, 0⟩]
           else [⟨150, 0, 0, 0, 0, 0⟩, ⟨100, 0, 0, 0, 0, 0⟩]))
        [(0, 100), (100, 200)]).1.map Candle.time) := by
  refine ⟨rfl, ?_⟩
  have heq : (run_backfill
      (fun c => Except.ok
        (if c.1 = 0 then [⟨100, 0, 0, 0, 0, 0⟩]
         else [⟨150, 0, 0, 0, 0, 0⟩, ⟨100, 0, 0, 0, 0, 0⟩]))
      [(0, 100), (100, 200)]).1.map Candle.time = ([100, 100, 150] : List Int) := rfl
  rw [heq]
  decide

/-- C2, amended. Each chunk's response is sorted ascending by timestamp
before it is appended and the output is the concatenation of these
per-chunk sorted lists, with no error; exact-timestamp duplicates are never
removed, so the output is strictly ascending and duplicate-free only under
the additional assumptions that every fetched candle's timestamp lies in
its own chunk's `[chunkStart, chunkEnd)` interval and that no chunk's
response contains an internal duplicate timestamp (adjacent chunks that
both return the shared boundary timestamp violate the first assumption and
produce a duplicate, as the counterexample shows). -/
theorem backfill_sorted (f : Int × Int → List Candle) (start stop granularity : Int)
    (hg : 0 < granularity) (hle : start ≤ stop)
    (hin : ∀ c ∈ daterange_chunks start stop granularity,
      ∀ cd ∈ f c, c.1 ≤ cd.time ∧ cd.time < c.2)
    (hnodup : ∀ c ∈ daterange_chunks start stop granularity,
      ((f c).map Candle.time).Nodup) :
    run_backfill (fun c => Except.ok (f c)) (daterange_chunks start stop granularity) =
      ((daterange_chunks start stop granularity).flatMap (fun c => sortCandles (f c)),
        none) ∧
    (∀ c ∈ daterange_chunks start stop granularity,
      List.Pairwise candleLE (sortCandles (f c))) ∧
    List.Pairwise (fun a b => a.time < b.time)
      ((run_backfill (fun c => Except.ok (f c))
        (daterange_chunks start stop granularity)).1) := by
  obtain ⟨ht, _⟩ := daterange_chunks_tilesFrom hg hle
  refine ⟨run_backfill_ok f _, fun c _ => sortCandles_sorted (f c), ?_⟩
  rw [run_backfill_ok f]
  exact flatMap_sortCandles_pairwise_lt f ht hin hnodup

/-- Witness for the amended C2: two in-range duplicate-free chunk responses
over `[0, 600)` with `granularity = 1`; the second arrives newest-first and
is sorted before being appended. -/
theorem backfill_sorted_witness :
    run_backfill
        (fun c => Except.ok
          (if c.1 = 0 then [⟨10, 1, 2, 3, 4, 5⟩]
           else [⟨450, 0, 0, 0, 0, 0⟩, ⟨300, 0, 0, 0, 0, 0⟩]))
        (daterange_chunks 0 600 1) =
      ((daterange_chunks 0 600 1).flatMap
        (fun c => sortCandles
          (if c.1 = 0 then [⟨10, 1, 2, 3, 4, 5⟩]
           else [⟨450, 0, 0, 0, 0, 0⟩, ⟨300, 0, 0, 0, 0, 0⟩])), none) ∧
    (∀ c ∈ daterange_chunks 0 600 1,
      List.Pairwise candleLE (sortCandles
        (if c.1 = 0 then [⟨10, 1, 2, 3, 4, 5⟩]
         else [⟨450, 0, 0, 0, 0, 0⟩, ⟨300, 0, 0, 0, 0, 0⟩]))) ∧
    List.Pairwise (fun a b => a.time < b.time)
      ((run_backfill
        (fun c => Except.ok
          (if c.1 = 0 then [⟨10, 1, 2, 3, 4, 5⟩]
           else [⟨450, 0, 0, 0, 0, 0⟩, ⟨300, 0, 0, 0, 0, 0⟩]))
        (daterange_chunks 0 600 1)).1) :=
  backfill_sorted _ 0 600 1 (by decide) (by decide)
    (by decide) (by decide)

/-- C5, counterexample. The spec claims a single chunk's fetch failure
is recorded and the remaining chunks are still fetched and persisted; the
source has no `try`/`except` around the loop body, so the exception aborts
the loop.  Here the second of three chunks fails: the output contains only
the first chunk's row, and the third chunk — whose fetch would have
succeeded with a row at `t = 200` — is never fetched, so its row is not
persisted. -/
theorem backfill_abort_cex :
    run_backfill
        (fun c => if c.1 = 100 then Except.error "boom"
                  else Except.ok [⟨c.1, 0, 0, 0, 0, 0⟩])
        [(0, 100), (100, 200), (200, 300)] =
      ([⟨0, 0, 0, 0, 0, 0⟩], some "boom") ∧
    (fun c => if c.1 = 100 then Except.error "boom"
              else Except.ok [⟨c.1, 0, 0, 0, 0, 0⟩] : Int × Int → Except String (List Candle))
        (200, 300) = Except.ok [⟨200, 0, 0, 0, 0, 0⟩] ∧
    (⟨200, 0, 0, 0, 0, 0⟩ : Candle) ∉
      (run_backfill
        (fun c => if c.1 = 100 then Except.error "boom"
                  else Except.ok [⟨c.1, 0, 0, 0, 0, 0⟩])
        [(0, 100), (100, 200), (200, 300)]).1 := by
  refine ⟨rfl, rfl, ?_⟩
  decide

/-- C5, amended. A chunk fetch failure aborts the backfill run: the rows
of the chunks before the first failure remain persisted (the file is
appended chunk by chunk), the failing chunk's error propagates uncaught,
and no chunk after the failure is fetched or persisted — the run's result
does not depend on the fetcher's behaviour on the remaining chunks. -/
theorem backfill_aborts_on_failure (fetch : Int × Int → Except String (List Candle))
    (f : Int × Int → List Candle) (pre post : List (Int × Int)) (c : Int × Int)
    (msg : String)
    (hpre : ∀ d ∈ pre, fetch d = Except.ok (f d))
    (hc : fetch c = Except.error msg) :
    run_backfill fetch (pre ++ c :: post) =
      (pre.flatMap (fun d => sortCandles (f d)), some msg) := by
  induction pre with
  | nil => simp [run_backfill, hc]
  | cons d rest ih =>
    have hd : fetch d = Except.ok (f d) := hpre d (by simp)
    rw [List.cons_append, run_backfill, hd]
    rw [ih (fun d' hd' => hpre d' (List.mem_cons_of_mem d hd'))]
    simp

/-- Witness for the amended C5 at the concrete three-chunk run used in the
counterexample (`pre = [(0,100)]`, failing chunk `(100,200)`,
`post = [(200,300)]`). -/
theorem backfill_aborts_on_failure_witness :
    run_backfill
        (fun c => if c.1 = 100 then Except.error "boom"
                  else Except.ok [⟨c.1, 0, 0, 0, 0, 0⟩])
        ([(0, 100)] ++ (100, 200) :: [(200, 300)]) =
      ([(0, 100)].flatMap
        (fun d => sortCandles [⟨d.1, 0, 0, 0, 0, 0⟩]), some "boom") :=
  backfill_aborts_on_failure _ (fun c => [⟨c.1, 0, 0, 0, 0, 0⟩]) _ _ _ _
    (by intro d hd; simp at hd; subst hd; rfl) rfl

/-! ## EventResolver: `get_latest_btc_daily_event` from `polymarket_btc/api.py`

Python:
```
def _end_date(evt):
    ts = evt.get("endDate")
    if not ts:
        return datetime.min.replace(tzinfo=timezone.utc)
    return _parse_ts(ts)

def get_all_btc_daily_events(...):
    events = series.get("events", [])
    if closed_only:
        events = [evt for evt in events if evt.get("closed")]
    ordered = sorted(events, key=_end_date)
    ...

def get_latest_btc_daily_event(now=None, ...):
    base = get_all_btc_daily_events(...)
    if not base:
        raise ValueError("No events found for btc-up-or-down-daily series")
    now = now or datetime.now(timezone.utc)
    candidates = [evt for evt in base if not evt.get("closed") and _end_date(evt) > now]
    if candidates:
        latest_meta = sorted(candidates, key=_end_date)[0]
    else:
        latest_meta = sorted(base, key=_end_date, reverse=True)[0]
    ...
```
An event is embedded as its two fields the resolver reads (`endDate`,
`closed`); timestamps are seconds.  `datetime.min` (0001-01-01T00:00:00Z)
is the epoch second `-62135596800`.  Python's `sorted` is a stable sort by
the key, which `List.insertionSort` matches (for `reverse=True` the key
comparison is flipped, which again matches Python's stable behaviour).
The `raise ValueError` on an empty series becomes `Option.none`. -/

structure Evt where
  endDate : Option Int
  closed : Bool
deriving DecidableEq, Repr

/-- Epoch second of `datetime.min` (0001-01-01T00:00:00 UTC). -/
def datetimeMin : Int := -62135596800

def _end_date (e : Evt) : Int := e.endDate.getD datetimeMin

/-- `sorted(·, key=_end_date)` comparison. -/
def evtLE (a b : Evt) : Prop := _end_date a ≤ _end_date b

/-- `sorted(·, key=_end_date, reverse=True)` comparison. -/
def evtGE (a b : Evt) : Prop := _end_date b ≤ _end_date a

instance : DecidableRel evtLE := fun a b => inferInstanceAs (Decidable (_end_date a ≤ _end_date b))

instance : DecidableRel evtGE := fun a b => inferInstanceAs (Decidable (_end_date b ≤ _end_date a))

instance : IsTotal Evt evtLE := ⟨fun a b => le_total (_end_date a) (_end_date b)⟩

instance : IsTrans Evt evtLE := ⟨fun _ _ _ => le_trans⟩

instance : IsTotal Evt evtGE := ⟨fun a b => le_total (_end_date b) (_end_date a)⟩

instance : IsTrans Evt evtGE := ⟨fun _ _ _ hab hbc => le_trans hbc hab⟩

def get_all_btc_daily_events (events : List Evt) (closed_only : Bool) : List Evt :=
  (if closed_only then events.filter (fun e => e.closed) else events).insertionSort evtLE

def get_latest_btc_daily_event (events : List Evt) (now : Int) : Option Evt :=
  let base := get_all_btc_daily_events events false
  if base.isEmpty then
    none
  else
    let candidates := base.filter (fun e => !e.closed && decide (_end_date e > now))
    if candidates.isEmpty then
      (base.insertionSort evtGE).head?
    else
      (candidates.insertionSort evtLE).head?

/-- The head of a stable sort of a nonempty list is a member that the sort
relation places below every member. -/
theorem head_insertionSort_min {α : Type} (r : α → α → Prop) [DecidableRel r]
    [IsTotal α r] [IsTrans α r] (l : List α) (hl : l ≠ []) :
    ∃ x, (l.insertionSort r).head? = some x ∧ x ∈ l ∧ ∀ y ∈ l, r x y := by
  cases hs : l.insertionSort r with
  | nil =>
    exfalso
    have := List.length_insertionSort r l
    rw [hs] at this
    exact hl (List.length_eq_zero.mp this.symm)
  | cons x t =>
    refine ⟨x, rfl, ?_, ?_⟩
    · have : x ∈ l.insertionSort r := by rw [hs]; simp
      exact (List.mem_insertionSort r).mp this
    · intro y hy
      have hy' : y ∈ l.insertionSort r := (List.mem_insertionSort r).mpr hy
      rw [hs] at hy'
      rcases List.mem_cons.mp hy' with h | h
      · rw [h]
        rcases total_of r x x with h' | h' <;> exact h'
      · have hsorted := List.sorted_insertionSort r l
        rw [hs] at hsorted
        exact List.rel_of_sorted_cons hsorted y h

theorem mem_get_all {events : List Evt} {e : Evt} :
    e ∈ get_all_btc_daily_events events false ↔ e ∈ events := by
  unfold get_all_btc_daily_events
  simp [List.mem_insertionSort]

theorem get_latest_eq (events : List Evt) (now : Int) :
    get_latest_btc_daily_event events now =
      if (get_all_btc_daily_events events false).isEmpty then none
      else
        if ((get_all_btc_daily_events events false).filter
            (fun e => !e.closed && decide (_end_date e > now))).isEmpty then
          ((get_all_btc_daily_events events false).insertionSort evtGE).head?
        else
          (((get_all_btc_daily_events events false).filter
              (fun e => !e.closed && decide (_end_date e > now))).insertionSort
            evtLE).head? :=
  rfl

/-- C3. For every non-empty collection of market instances and reference
instant `now`, the resolver returns an instance of the collection; when some
instance is open (`closed = false`) with `endTime > now`, the returned one
is such an instance with the smallest `endTime` among them; otherwise the
returned one has the largest `endTime` among all instances. -/
theorem resolver_correct (events : List Evt) (now : Int) (hne : events ≠ []) :
    ∃ r, get_latest_btc_daily_event events now = some r ∧ r ∈ events ∧
      ((∃ e ∈ events, e.closed = false ∧ now < _end_date e) →
        r.closed = false ∧ now < _end_date r ∧
          ∀ e ∈ events, e.closed = false → now < _end_date e →
            _end_date r ≤ _end_date e) ∧
      ((∀ e ∈ events, e.closed = true ∨ _end_date e ≤ now) →
        ∀ e ∈ events, _end_date e ≤ _end_date r) := by
  have hfold : get_all_btc_daily_events events false = events.insertionSort evtLE := rfl
  have hbase_ne : get_all_btc_daily_events events false ≠ [] := by
    rw [hfold]
    intro h
    apply hne
    have hlen := List.length_insertionSort evtLE events
    rw [h] at hlen
    exact List.length_eq_zero.mp hlen.symm
  have hbase_empty : (get_all_btc_daily_events events false).isEmpty = false := by
    cases h : get_all_btc_daily_events events false with
    | nil => exact absurd h hbase_ne
    | cons a t => rfl
  have hmem_cand : ∀ e, e ∈ (get_all_btc_daily_events events false).filter
      (fun e => !e.closed && decide (_end_date e > now)) ↔
      e ∈ events ∧ e.closed = false ∧ now < _end_date e := by
    intro e
    rw [List.mem_filter]
    constructor
    · rintro ⟨hb, hp⟩
      simp only [Bool.and_eq_true, Bool.not_eq_true', decide_eq_true_eq] at hp
      exact ⟨mem_get_all.mp hb, hp.1, hp.2⟩
    · rintro ⟨he, hc, hn⟩
      refine ⟨mem_get_all.mpr he, ?_⟩
      simp only [Bool.and_eq_true, Bool.not_eq_true', decide_eq_true_eq]
      exact ⟨hc, hn⟩
  by_cases hce : (get_all_btc_daily_events events false).filter
      (fun e => !e.closed && decide (_end_date e > now)) = []
  · -- fallback: no open-and-future instance
    obtain ⟨x, hx, hxmem, hxmin⟩ := head_insertionSort_min evtGE _ hbase_ne
    refine ⟨x, ?_, mem_get_all.mp hxmem, ?_, ?_⟩
    · rw [get_latest_eq, hbase_empty, hce]
      simpa using hx
    · rintro ⟨e, he, hc, hn⟩
      have hmem : e ∈ (get_all_btc_daily_events events false).filter
          (fun e => !e.closed && decide (_end_date e > now)) :=
        (hmem_cand e).mpr ⟨he, hc, hn⟩
      rw [hce] at hmem
      exact absurd hmem (List.not_mem_nil e)
    · intro _ e he
      exact hxmin e (mem_get_all.mpr he)
  · -- some open-and-future instance exists
    have hcne : ((get_all_btc_daily_events events false).filter
        (fun e => !e.closed && decide (_end_date e > now))).isEmpty = false := by
      cases h : (get_all_btc_daily_events events false).filter
          (fun e => !e.closed && decide (_end_date e > now)) with
      | nil => exact absurd h hce
      | cons a t => rfl
    obtain ⟨x, hx, hxmem, hxmin⟩ := head_insertionSort_min evtLE _ hce
    have hx_props := (hmem_cand x).mp hxmem
    refine ⟨x, ?_, hx_props.1, ?_, ?_⟩
    · rw [get_latest_eq, hbase_empty, hcne]
      simpa using hx
    · refine fun _ => ⟨hx_props.2.1, hx_props.2.2, ?_⟩
      intro e he hc hn
      exact hxmin e ((hmem_cand e).mpr ⟨he, hc, hn⟩)
    · intro hall
      exfalso
      rcases hall x hx_props.1 with h | h
      · rw [hx_props.2.1] at h
        exact Bool.false_ne_true h
      · exact absurd hx_props.2.2 (not_lt.mpr h)


/-- Witness for C3 at the spec's example: instances
`[{end:10, closed:false}, {end:20, closed:false}, {end:5, closed:true}]`.
With `now = 1` the resolver returns the `end:10` instance, with `now = 25`
the `end:20` instance, and the general theorem applies at `now = 1`. -/
theorem resolver_correct_witness :
    get_latest_btc_daily_event
        [⟨some 10, false⟩, ⟨some 20, false⟩, ⟨some 5, true⟩] 1 =
      some ⟨some 10, false⟩ ∧
    get_latest_btc_daily_event
        [⟨some 10, false⟩, ⟨some 20, false⟩, ⟨some 5, true⟩] 25 =
      some ⟨some 20, false⟩ ∧
    (∃ r, get_latest_btc_daily_event
        [⟨some 10, false⟩, ⟨some 20, false⟩, ⟨some 5, true⟩] 1 = some r ∧
      r ∈ [(⟨some 10, false⟩ : Evt), ⟨some 20, false⟩, ⟨some 5, true⟩] ∧
      ((∃ e ∈ [(⟨some 10, false⟩ : Evt), ⟨some 20, false⟩, ⟨some 5, true⟩],
          e.closed = false ∧ 1 < _end_date e) →
        r.closed = false ∧ 1 < _end_date r ∧
          ∀ e ∈ [(⟨some 10, false⟩ : Evt), ⟨some 20, false⟩, ⟨some 5, true⟩],
            e.closed = false → 1 < _end_date e → _end_date r ≤ _end_date e) ∧
      ((∀ e ∈ [(⟨some 10, false⟩ : Evt), ⟨some 20, false⟩, ⟨some 5, true⟩],
          e.closed = true ∨ _end_date e ≤ 1) →
        ∀ e ∈ [(⟨some 10, false⟩ : Evt), ⟨some 20, false⟩, ⟨some 5, true⟩],
          _end_date e ≤ _end_date r)) :=
  ⟨by decide, by decide,
    resolver_correct [⟨some 10, false⟩, ⟨some 20, false⟩, ⟨some 5, true⟩] 1
      (by decide)⟩

/-- C7. When the collection of market instances is empty, the resolver
raises (`ValueError`, the spec's `NoInstancesError`) instead of returning an
instance; embedded as `Option`, it returns `none` for every `now`. -/
theorem resolver_empty_raises (now : Int) :
    get_latest_btc_daily_event [] now = none := rfl

/-! ## SeriesResampler: `resample_df` from `scripts/resample_prices_history.py`

Python:
```
def resample_df(df, rule, method):
    if df.empty:
        return df
    origin = df["ts"].iloc[0]
    sr = df.set_index("ts")["prob"]
    rs = sr.resample(rule, origin=origin).mean()
    if method == "ffill":
        rs = rs.ffill()
    elif method == "linear":
        rs = rs.interpolate()
    return rs.to_frame(name="prob").reset_index()
```
The observation frame is a list of `(timestamp, probability)` pairs; the
resample rule is its step in seconds.  `pandas.resample(rule,
origin=origin).mean()` produces one bucket per grid point
`origin + k*step` from the first up to the last observation, holding the
mean of the observations in `[gridPoint, gridPoint + step)` and `NaN`
(here `Option.none`) for empty buckets; `Series.ffill` fills a missing
bucket with the nearest earlier non-missing value; and
`Series.interpolate(method="linear")` (positional linear interpolation,
the pandas default) fills a missing bucket between the nearest earlier and
nearest later non-missing positions `a < i < b` with
`v_a + (v_b - v_a)*(i-a)/(b-a)`, keeps a leading missing run, and pads a
trailing missing run with the last non-missing value.

`process_files` then adds `elapsed_hours = (ts - first ts)/3600`
(`elapsed_hours` below).
-/

/-- The resample bucket a timestamp falls into: `⌊(t - anchor)/step⌋`. -/
def bucketIndex (anchor step t : Int) : Int := (t - anchor).fdiv step

/-- Mean of the observations in bucket `k` (`NaN`, i.e. `none`, if empty). -/
def bucketMean (obs : List (Int × ℚ)) (anchor step : Int) (k : Int) : Option ℚ :=
  let vals := (obs.filter (fun p => bucketIndex anchor step p.1 == k)).map Prod.snd
  if vals.isEmpty then none else some (vals.sum / (vals.length : ℚ))

/-- `sr.resample(rule, origin=first ts).mean()`: bucket means on the grid
anchored at the first observation, up to the bucket of the last one. -/
def rawSeries : List (Int × ℚ) → Int → List (Option ℚ)
  | [], _ => []
  | o :: rest, step =>
    let t0 := o.1
    let lastT := (rest.getLastD o).1
    let K := ((lastT - t0).fdiv step).toNat
    (List.range (K + 1)).map (fun (k : Nat) => bucketMean (o :: rest) t0 step (k : Int))

def ffillAux : Option ℚ → List (Option ℚ) → List (Option ℚ)
  | _, [] => []
  | prev, none :: rest => prev :: ffillAux prev rest
  | _, some v :: rest => some v :: ffillAux (some v) rest

/-- `Series.ffill`. -/
def ffill (l : List (Option ℚ)) : List (Option ℚ) := ffillAux none l

/-- Nearest non-missing position at or before `i`. -/
def prevValid (l : List (Option ℚ)) : Nat → Option (Nat × ℚ)
  | 0 => (l.getD 0 none).map (fun v => (0, v))
  | i + 1 =>
    match l.getD (i + 1) none with
    | some v => some (i + 1, v)
    | none => prevValid l i

def firstSomeFrom (l : List (Option ℚ)) : Nat → Nat → Option (Nat × ℚ)
  | _, 0 => none
  | j, fuel + 1 =>
    match l.getD j none with
    | some v => some (j, v)
    | none => firstSomeFrom l (j + 1) fuel

/-- Nearest non-missing position strictly after `i`. -/
def nextValid (l : List (Option ℚ)) (i : Nat) : Option (Nat × ℚ) :=
  firstSomeFrom l (i + 1) (l.length - (i + 1))

/-- `Series.interpolate(method="linear")`, positionally. -/
def interpolate (l : List (Option ℚ)) : List (Option ℚ) :=
  (List.range l.length).map (fun i =>
    match l.getD i none with
    | some v => some v
    | none =>
      match prevValid l i, nextValid l i with
      | some av, some bv =>
        some (av.2 + (bv.2 - av.2) * (((i : ℚ) - (av.1 : ℚ)) / ((bv.1 : ℚ) - (av.1 : ℚ))))
      | some av, none => some av.2
      | none, _ => none)

def resample_df (obs : List (Int × ℚ)) (step : Int) (method : String) :
    List (Int × Option ℚ) :=
  match obs with
  | [] => []
  | o :: rest =>
    let raw := rawSeries (o :: rest) step
    let filled :=
      if method = "ffill" then ffill raw
      else if method = "linear" then interpolate raw
      else raw
    List.zipWith (fun (k : Nat) v => (o.1 + step * (k : Int), v))
      (List.range raw.length) filled

/-- `rs["elapsed_hours"] = (rs["ts"] - rs["ts"].iloc[0]).dt.total_seconds()/3600`
from `process_files`. -/
def elapsed_hours (rs : List (Int × Option ℚ)) : List ℚ :=
  match rs with
  | [] => []
  | p0 :: rest => (p0 :: rest).map (fun p => ((p.1 - p0.1 : Int) : ℚ) / 3600)

/-- Observations with timestamp in `[lo, hi)`, as the list of their values
(in input order). -/
def intervalObs (obs : List (Int × ℚ)) (lo hi : Int) : List ℚ :=
  (obs.filter (fun p => decide (lo ≤ p.1) && decide (p.1 < hi))).map Prod.snd

/-- Arithmetic mean of a list of rationals. -/
def meanList (xs : List ℚ) : ℚ := xs.sum / (xs.length : ℚ)

theorem bucketIndex_eq_iff {step : Int} (hs : 0 < step) (anchor t : Int) (k : Int) :
    bucketIndex anchor step t = k ↔
      anchor + step * k ≤ t ∧ t < anchor + step * (k + 1) := by
  unfold bucketIndex
  have hmod := Int.fmod_add_fdiv (t - anchor) step
  have hnn : 0 ≤ (t - anchor).fmod step := Int.fmod_nonneg' (t - anchor) hs
  have hlt : (t - anchor).fmod step < step := Int.fmod_lt_of_pos (t - anchor) hs
  constructor
  · intro h
    rw [← h]
    constructor <;> nlinarith [hmod, hnn, hlt]
  · rintro ⟨h1, h2⟩
    set q := (t - anchor).fdiv step with hq
    by_contra hne
    rcases lt_or_gt_of_ne hne with hlt' | hgt
    · have : q + 1 ≤ k := by omega
      nlinarith [mul_le_mul_of_nonneg_left this (le_of_lt hs)]
    · have : k + 1 ≤ q := by omega
      nlinarith [mul_le_mul_of_nonneg_left this (le_of_lt hs)]

/-- The bucket filter coincides with the half-open-interval filter. -/
theorem bucket_filter_eq_interval {step : Int} (hs : 0 < step)
    (obs : List (Int × ℚ)) (anchor : Int) (k : Int) :
    obs.filter (fun p => bucketIndex anchor step p.1 == k) =
      obs.filter (fun p =>
        decide (anchor + step * k ≤ p.1) && decide (p.1 < anchor + step * k + step)) := by
  apply List.filter_congr
  intro p _
  have hiff := bucketIndex_eq_iff hs anchor p.1 k
  have h2 : anchor + step * (k + 1) = anchor + step * k + step := by ring
  rw [h2] at hiff
  rw [Bool.eq_iff_iff]
  simp only [beq_iff_eq, Bool.and_eq_true, decide_eq_true_eq]
  exact hiff

/-- `bucketMean` in interval terms. -/
theorem bucketMean_eq_intervalObs {step : Int} (hs : 0 < step)
    (obs : List (Int × ℚ)) (anchor : Int) (k : Int) :
    bucketMean obs anchor step k =
      if (intervalObs obs (anchor + step * k) (anchor + step * k + step)).isEmpty
      then none
      else some (meanList (intervalObs obs (anchor + step * k) (anchor + step * k + step))) := by
  unfold bucketMean intervalObs meanList
  rw [bucket_filter_eq_interval hs]

theorem rawSeries_cons (o : Int × ℚ) (rest : List (Int × ℚ)) (step : Int) :
    rawSeries (o :: rest) step =
      (List.range ((((rest.getLastD o).1 - o.1).fdiv step).toNat + 1)).map
        (fun (k : Nat) => bucketMean (o :: rest) o.1 step (k : Int)) := rfl

theorem resample_df_cons (o : Int × ℚ) (rest : List (Int × ℚ)) (step : Int)
    (method : String) :
    resample_df (o :: rest) step method =
      List.zipWith (fun (k : Nat) v => (o.1 + step * (k : Int), v))
        (List.range (rawSeries (o :: rest) step).length)
        (if method = "ffill" then ffill (rawSeries (o :: rest) step)
         else if method = "linear" then interpolate (rawSeries (o :: rest) step)
         else rawSeries (o :: rest) step) := rfl

theorem rawSeries_length (o : Int × ℚ) (rest : List (Int × ℚ)) (step : Int) :
    (rawSeries (o :: rest) step).length =
      (((rest.getLastD o).1 - o.1).fdiv step).toNat + 1 := by
  rw [rawSeries_cons, List.length_map, List.length_range]

theorem rawSeries_getElem (o : Int × ℚ) (rest : List (Int × ℚ)) (step : Int)
    (k : Nat) (hk : k < (rawSeries (o :: rest) step).length) :
    (rawSeries (o :: rest) step)[k]? = some (bucketMean (o :: rest) o.1 step (k : Int)) := by
  conv in (rawSeries (o :: rest) step)[k]? => rw [rawSeries_cons]
  rw [List.getElem?_map, List.getElem?_range]
  · rfl
  · rwa [rawSeries_length] at hk

theorem ffillAux_length (prev : Option ℚ) (l : List (Option ℚ)) :
    (ffillAux prev l).length = l.length := by
  induction l generalizing prev with
  | nil => rfl
  | cons x rest ih =>
    cases x <;> simp [ffillAux, ih]

theorem ffill_length (l : List (Option ℚ)) : (ffill l).length = l.length :=
  ffillAux_length none l

theorem interpolate_length (l : List (Option ℚ)) : (interpolate l).length = l.length := by
  rw [interpolate, List.length_map, List.length_range]

/-- The value `ffillAux prev l` holds at position `i`: the most recent
non-missing entry at or before `i`, else `prev`. -/
def ffillVal (prev : Option ℚ) : List (Option ℚ) → Nat → Option ℚ
  | [], _ => prev
  | none :: _, 0 => prev
  | some v :: _, 0 => some v
  | none :: rest, i + 1 => ffillVal prev rest i
  | some v :: rest, i + 1 => ffillVal (some v) rest i

theorem ffillAux_getElem (prev : Option ℚ) (l : List (Option ℚ)) (i : Nat)
    (h : i < l.length) :
    (ffillAux prev l)[i]? = some (ffillVal prev l i) := by
  induction l generalizing prev i with
  | nil => simp at h
  | cons x rest ih =>
    cases x with
    | none =>
      cases i with
      | zero => simp [ffillAux, ffillVal]
      | succ j =>
        simp only [ffillAux, List.getElem?_cons_succ, ffillVal]
        exact ih prev j (by simpa using h)
    | some v =>
      cases i with
      | zero => simp [ffillAux, ffillVal]
      | succ j =>
        simp only [ffillAux, List.getElem?_cons_succ, ffillVal]
        exact ih (some v) j (by simpa using h)

theorem ffillVal_spec (l : List (Option ℚ)) (k : Nat) (prev : Option ℚ)
    (hk : k < l.length) :
    ((∀ j, j ≤ k → l[j]? = some none) ∧ ffillVal prev l k = prev) ∨
    (∃ j w, j ≤ k ∧ l[j]? = some (some w) ∧
      (∀ j', j < j' → j' ≤ k → l[j']? = some none) ∧ ffillVal prev l k = some w) := by
  induction l generalizing prev k with
  | nil => simp at hk
  | cons x rest ih =>
    cases k with
    | zero =>
      cases x with
      | none =>
        left
        refine ⟨?_, by simp [ffillVal]⟩
        intro j hj
        have : j = 0 := by omega
        subst this
        simp
      | some v =>
        right
        refine ⟨0, v, le_refl 0, by simp, ?_, by simp [ffillVal]⟩
        intro j' h1 h2
        omega
    | succ k =>
      have hk' : k < rest.length := by simpa using hk
      cases x with
      | none =>
        rcases ih k prev hk' with ⟨hall, hval⟩ | ⟨j, w, hj, hjv, hnone, hval⟩
        · left
          refine ⟨?_, by simpa [ffillVal] using hval⟩
          intro j hj
          cases j with
          | zero => simp
          | succ j' =>
            rw [List.getElem?_cons_succ]
            exact hall j' (by omega)
        · right
          refine ⟨j + 1, w, by omega, by simpa using hjv, ?_,
            by simpa [ffillVal] using hval⟩
          intro j' h1 h2
          cases j' with
          | zero => omega
          | succ j'' =>
            rw [List.getElem?_cons_succ]
            exact hnone j'' (by omega) (by omega)
      | some v =>
        rcases ih k (some v) hk' with ⟨hall, hval⟩ | ⟨j, w, hj, hjv, hnone, hval⟩
        · right
          refine ⟨0, v, by omega, by simp, ?_, by simpa [ffillVal] using hval⟩
          intro j' h1 h2
          cases j' with
          | zero => omega
          | succ j'' =>
            rw [List.getElem?_cons_succ]
            exact hall j'' (by omega)
        · right
          refine ⟨j + 1, w, by omega, by simpa using hjv, ?_,
            by simpa [ffillVal] using hval⟩
          intro j' h1 h2
          cases j' with
          | zero => omega
          | succ j'' =>
            rw [List.getElem?_cons_succ]
            exact hnone j'' (by omega) (by omega)

theorem ffillVal_of_some (l : List (Option ℚ)) (k : Nat) (prev : Option ℚ) (m : ℚ)
    (h : l[k]? = some (some m)) : ffillVal prev l k = some m := by
  induction l generalizing prev k with
  | nil => simp at h
  | cons x rest ih =>
    cases k with
    | zero =>
      rw [List.getElem?_cons_zero] at h
      cases h
      rfl
    | succ j =>
      rw [List.getElem?_cons_succ] at h
      cases x with
      | none => exact ih j prev h
      | some v => exact ih j (some v) h

theorem interpolate_getElem (l : List (Option ℚ)) (i : Nat) (h : i < l.length) :
    (interpolate l)[i]? = some (
      match l.getD i none with
      | some v => some v
      | none =>
        match prevValid l i, nextValid l i with
        | some av, some bv =>
          some (av.2 + (bv.2 - av.2) * (((i : ℚ) - (av.1 : ℚ)) / ((bv.1 : ℚ) - (av.1 : ℚ))))
        | some av, none => some av.2
        | none, _ => none) := by
  rw [interpolate, List.getElem?_map, List.getElem?_range h]
  rfl

theorem prevValid_spec (l : List (Option ℚ)) (i : Nat) :
    (prevValid l i = none ∧ ∀ j, j ≤ i → l.getD j none = none) ∨
    (∃ a va, prevValid l i = some (a, va) ∧ a ≤ i ∧ l.getD a none = some va ∧
      ∀ j, a < j → j ≤ i → l.getD j none = none) := by
  induction i with
  | zero =>
    cases hx : l.getD 0 none with
    | none =>
      left
      refine ⟨by simp only [prevValid, hx]; rfl, ?_⟩
      intro j hj
      have : j = 0 := by omega
      subst this
      exact hx
    | some v =>
      right
      refine ⟨0, v, by simp only [prevValid, hx]; rfl, le_refl 0, hx, ?_⟩
      intro j h1 h2
      omega
  | succ i ih =>
    cases hx : l.getD (i + 1) none with
    | some v =>
      right
      refine ⟨i + 1, v, by simp only [prevValid, hx], le_refl _, hx, ?_⟩
      intro j h1 h2
      omega
    | none =>
      have hpv : prevValid l (i + 1) = prevValid l i := by simp only [prevValid, hx]
      rcases ih with ⟨h1, h2⟩ | ⟨a, va, h1, h2, h3, h4⟩
      · left
        refine ⟨hpv ▸ h1, ?_⟩
        intro j hj
        rcases Nat.lt_or_ge j (i + 1) with hj' | hj'
        · exact h2 j (by omega)
        · have : j = i + 1 := by omega
          subst this
          exact hx
      · right
        refine ⟨a, va, hpv ▸ h1, by omega, h3, ?_⟩
        intro j hj1 hj2
        rcases Nat.lt_or_ge j (i + 1) with hj' | hj'
        · exact h4 j hj1 (by omega)
        · have : j = i + 1 := by omega
          subst this
          exact hx

theorem firstSomeFrom_spec (l : List (Option ℚ)) (fuel : Nat) :
    ∀ j, (firstSomeFrom l j fuel = none ∧
        ∀ m, j ≤ m → m < j + fuel → l.getD m none = none) ∨
      (∃ b vb, firstSomeFrom l j fuel = some (b, vb) ∧ j ≤ b ∧ b < j + fuel ∧
        l.getD b none = some vb ∧ ∀ m, j ≤ m → m < b → l.getD m none = none) := by
  induction fuel with
  | zero =>
    intro j
    left
    refine ⟨rfl, ?_⟩
    intro m h1 h2
    omega
  | succ f ih =>
    intro j
    cases hx : l.getD j none with
    | some v =>
      right
      refine ⟨j, v, by simp only [firstSomeFrom, hx], le_refl _, by omega, hx, ?_⟩
      intro m h1 h2
      omega
    | none =>
      have heq : firstSomeFrom l j (f + 1) = firstSomeFrom l (j + 1) f := by
        simp only [firstSomeFrom, hx]
      rcases ih (j + 1) with ⟨h1, h2⟩ | ⟨b, vb, h1, h2, h3, h4, h5⟩
      · left
        refine ⟨heq ▸ h1, ?_⟩
        intro m hm1 hm2
        rcases Nat.eq_or_lt_of_le hm1 with hm | hm
        · subst hm; exact hx
        · exact h2 m (by omega) (by omega)
      · right
        refine ⟨b, vb, heq ▸ h1, by omega, by omega, h4, ?_⟩
        intro m hm1 hm2
        rcases Nat.eq_or_lt_of_le hm1 with hm | hm
        · subst hm; exact hx
        · exact h5 m (by omega) hm2

theorem resample_df_getElem (o : Int × ℚ) (rest : List (Int × ℚ)) (step : Int)
    (method : String) (k : Nat) (hk : k < (rawSeries (o :: rest) step).length) :
    (resample_df (o :: rest) step method)[k]? =
      ((if method = "ffill" then ffill (rawSeries (o :: rest) step)
        else if method = "linear" then interpolate (rawSeries (o :: rest) step)
        else rawSeries (o :: rest) step)[k]?).map
        (fun v => (o.1 + step * (k : Int), v)) := by
  have hlen : (if method = "ffill" then ffill (rawSeries (o :: rest) step)
      else if method = "linear" then interpolate (rawSeries (o :: rest) step)
      else rawSeries (o :: rest) step).length = (rawSeries (o :: rest) step).length := by
    split_ifs with h1 h2
    · exact ffill_length _
    · exact interpolate_length _
    · rfl
  obtain ⟨val, hval⟩ : ∃ val,
      (if method = "ffill" then ffill (rawSeries (o :: rest) step)
       else if method = "linear" then interpolate (rawSeries (o :: rest) step)
       else rawSeries (o :: rest) step)[k]? = some val := by
    rw [List.getElem?_eq_getElem (by omega)]
    exact ⟨_, rfl⟩
  rw [resample_df_cons, List.getElem?_zipWith, List.getElem?_range hk, hval]
  rfl

theorem rawSeries_getD (o : Int × ℚ) (rest : List (Int × ℚ)) (step : Int)
    (k : Nat) (hk : k < (rawSeries (o :: rest) step).length) :
    (rawSeries (o :: rest) step).getD k none =
      bucketMean (o :: rest) o.1 step (k : Int) := by
  rw [List.getD_eq_getElem?_getD, rawSeries_getElem o rest step k hk]
  rfl

theorem bucketMean_isSome_of_mem {obs : List (Int × ℚ)} {t0 step : Int} {k : Int}
    (p : Int × ℚ) (hp : p ∈ obs) (hb : bucketIndex t0 step p.1 = k) :
    ∃ m, bucketMean obs t0 step k = some m := by
  unfold bucketMean
  have hmem : p ∈ obs.filter (fun q => bucketIndex t0 step q.1 == k) :=
    List.mem_filter.mpr ⟨hp, by simp [hb]⟩
  cases hf : obs.filter (fun q => bucketIndex t0 step q.1 == k) with
  | nil => rw [hf] at hmem; simp at hmem
  | cons q t => exact ⟨_, rfl⟩

theorem bucketMean_none_iff {step : Int} (hs : 0 < step) (obs : List (Int × ℚ))
    (anchor k : Int) :
    bucketMean obs anchor step k = none ↔
      intervalObs obs (anchor + step * k) (anchor + step * k + step) = [] := by
  rw [bucketMean_eq_intervalObs hs]
  cases h : intervalObs obs (anchor + step * k) (anchor + step * k + step) with
  | nil => simp [h]
  | cons a t => simp [h]

theorem bucketMean_some_mean {step : Int} (hs : 0 < step) (obs : List (Int × ℚ))
    (anchor k : Int) (m : ℚ) (h : bucketMean obs anchor step k = some m) :
    intervalObs obs (anchor + step * k) (anchor + step * k + step) ≠ [] ∧
      m = meanList (intervalObs obs (anchor + step * k) (anchor + step * k + step)) := by
  rw [bucketMean_eq_intervalObs hs] at h
  cases hi : intervalObs obs (anchor + step * k) (anchor + step * k + step) with
  | nil => rw [hi] at h; simp at h
  | cons a t =>
    rw [hi] at h
    simp only [List.isEmpty_cons, Bool.false_eq_true, if_false] at h
    cases h
    exact ⟨by simp, rfl⟩

theorem bucketMean_of_ne_nil {step : Int} (hs : 0 < step) (obs : List (Int × ℚ))
    (anchor k : Int)
    (h : intervalObs obs (anchor + step * k) (anchor + step * k + step) ≠ []) :
    bucketMean obs anchor step k =
      some (meanList (intervalObs obs (anchor + step * k) (anchor + step * k + step))) := by
  rw [bucketMean_eq_intervalObs hs]
  cases hi : intervalObs obs (anchor + step * k) (anchor + step * k + step) with
  | nil => exact absurd hi h
  | cons a t => simp

theorem rawSeries_length_pos (o : Int × ℚ) (rest : List (Int × ℚ)) (step : Int) :
    0 < (rawSeries (o :: rest) step).length := by
  rw [rawSeries_length]
  omega

theorem rawSeries_zero_isSome (o : Int × ℚ) (rest : List (Int × ℚ)) (step : Int) :
    ∃ m, (rawSeries (o :: rest) step).getD 0 none = some m := by
  rw [rawSeries_getD o rest step 0 (rawSeries_length_pos o rest step)]
  have h0 : bucketIndex o.1 step o.1 = ((0 : Nat) : Int) := by
    unfold bucketIndex
    simp [Int.zero_fdiv]
  exact bucketMean_isSome_of_mem o (by simp) h0

theorem getLastD_mem_cons (o : Int × ℚ) (rest : List (Int × ℚ)) :
    rest.getLastD o ∈ o :: rest := by
  induction rest generalizing o with
  | nil => simp [List.getLastD]
  | cons r rs ih =>
    rw [List.getLastD_cons]
    rcases List.mem_cons.mp (ih r) with h | h
    · rw [h]
      exact List.mem_cons_of_mem o (List.mem_cons_self r rs)
    · exact List.mem_cons_of_mem o (List.mem_cons_of_mem r h)

theorem rawSeries_last_isSome (o : Int × ℚ) (rest : List (Int × ℚ)) (step : Int)
    (hstep : 0 < step) (hsorted : ∀ b ∈ rest, o.1 ≤ b.1) :
    ∃ m, (rawSeries (o :: rest) step).getD
      ((rawSeries (o :: rest) step).length - 1) none = some m := by
  have hlen := rawSeries_length o rest step
  have hklt : (rawSeries (o :: rest) step).length - 1 <
      (rawSeries (o :: rest) step).length := by omega
  rw [rawSeries_getD o rest step _ hklt]
  have hmem := getLastD_mem_cons o rest
  have hle : o.1 ≤ (rest.getLastD o).1 := by
    rcases List.mem_cons.mp hmem with h | h
    · rw [h]
    · exact hsorted _ h
  have hnn : 0 ≤ ((rest.getLastD o).1 - o.1).fdiv step :=
    Int.fdiv_nonneg (by omega) (le_of_lt hstep)
  have hcast : (((rawSeries (o :: rest) step).length - 1 : Nat) : Int) =
      ((rest.getLastD o).1 - o.1).fdiv step := by
    rw [hlen]
    simp only [Nat.add_sub_cancel]
    exact Int.toNat_of_nonneg hnn
  refine bucketMean_isSome_of_mem (rest.getLastD o) hmem ?_
  rw [hcast]
  rfl

theorem ffill_getElem (l : List (Option ℚ)) (i : Nat) (h : i < l.length) :
    (ffill l)[i]? = some (ffillVal none l i) :=
  ffillAux_getElem none l i h

theorem getElem?_of_getD (l : List (Option ℚ)) (i : Nat) (h : i < l.length) :
    l[i]? = some (l.getD i none) := by
  rw [List.getD_eq_getElem?_getD, List.getElem?_eq_getElem h]
  rfl

theorem nextValid_eq (l : List (Option ℚ)) (i : Nat) :
    nextValid l i = firstSomeFrom l (i + 1) (l.length - (i + 1)) := rfl

/-- C4. For every non-empty observation sequence (anchored at its first
timestamp) and positive grid step: the resampled value at every grid point
whose bucket `[gridPoint, gridPoint + step)` contains observations is the
mean of those observations; under `"ffill"` an empty bucket takes the value
of the nearest earlier non-empty bucket; under `"linear"` an empty bucket
strictly between the nearest earlier non-empty bucket `a` and nearest later
non-empty bucket `b` gets the linear interpolation of their means. -/
theorem resample_df_correct (o : Int × ℚ) (rest : List (Int × ℚ)) (step : Int)
    (method : String)
    (hsorted : List.Pairwise (fun a b => a.1 ≤ b.1) (o :: rest))
    (hstep : 0 < step) :
    (∀ k, k < (rawSeries (o :: rest) step).length →
      intervalObs (o :: rest) (o.1 + step * k) (o.1 + step * k + step) ≠ [] →
      (resample_df (o :: rest) step method)[k]? =
        some (o.1 + step * (k : Int),
          some (meanList (intervalObs (o :: rest) (o.1 + step * k) (o.1 + step * k + step))))) ∧
    (method = "ffill" →
      ∀ k, k < (rawSeries (o :: rest) step).length →
      intervalObs (o :: rest) (o.1 + step * k) (o.1 + step * k + step) = [] →
      ∃ j w, j < k ∧
        intervalObs (o :: rest) (o.1 + step * j) (o.1 + step * j + step) ≠ [] ∧
        (∀ i, j < i → i ≤ k →
          intervalObs (o :: rest) (o.1 + step * i) (o.1 + step * i + step) = []) ∧
        w = meanList (intervalObs (o :: rest) (o.1 + step * j) (o.1 + step * j + step)) ∧
        (resample_df (o :: rest) step method)[k]? = some (o.1 + step * (k : Int), some w)) ∧
    (method = "linear" →
      ∀ k, k < (rawSeries (o :: rest) step).length →
      intervalObs (o :: rest) (o.1 + step * k) (o.1 + step * k + step) = [] →
      ∃ a b va vb, a < k ∧ k < b ∧ b < (rawSeries (o :: rest) step).length ∧
        intervalObs (o :: rest) (o.1 + step * a) (o.1 + step * a + step) ≠ [] ∧
        va = meanList (intervalObs (o :: rest) (o.1 + step * a) (o.1 + step * a + step)) ∧
        intervalObs (o :: rest) (o.1 + step * b) (o.1 + step * b + step) ≠ [] ∧
        vb = meanList (intervalObs (o :: rest) (o.1 + step * b) (o.1 + step * b + step)) ∧
        (∀ i, a < i → i < b →
          intervalObs (o :: rest) (o.1 + step * i) (o.1 + step * i + step) = []) ∧
        (resample_df (o :: rest) step method)[k]? =
          some (o.1 + step * (k : Int),
            some (va + (vb - va) * (((k : ℚ) - (a : ℚ)) / ((b : ℚ) - (a : ℚ)))))) := by
  refine ⟨?_, ?_, ?_⟩
  · -- non-empty buckets hold the mean, under every fill method
    intro k hk hne
    have hbm : bucketMean (o :: rest) o.1 step (k : Int) =
        some (meanList (intervalObs (o :: rest) (o.1 + step * k) (o.1 + step * k + step))) :=
      bucketMean_of_ne_nil hstep _ _ _ hne
    have hraw : (rawSeries (o :: rest) step)[k]? =
        some (some (meanList (intervalObs (o :: rest) (o.1 + step * k) (o.1 + step * k + step)))) := by
      rw [rawSeries_getElem o rest step k hk, hbm]
    have hgetD : (rawSeries (o :: rest) step).getD k none =
        some (meanList (intervalObs (o :: rest) (o.1 + step * k) (o.1 + step * k + step))) := by
      rw [rawSeries_getD o rest step k hk, hbm]
    rw [resample_df_getElem o rest step method k hk]
    split_ifs with h1 h2
    · rw [ffill_getElem _ k hk, ffillVal_of_some _ k none _ hraw]
      rfl
    · rw [interpolate_getElem _ k hk, hgetD]
      rfl
    · rw [hraw]
      rfl
  · -- forward fill
    intro hmeth k hk hempty
    subst hmeth
    have hbm_none : bucketMean (o :: rest) o.1 step (k : Int) = none :=
      (bucketMean_none_iff hstep _ _ _).mpr hempty
    have hrawk : (rawSeries (o :: rest) step)[k]? = some none := by
      rw [rawSeries_getElem o rest step k hk, hbm_none]
    obtain ⟨m0, hm0⟩ := rawSeries_zero_isSome o rest step
    have hraw0 : (rawSeries (o :: rest) step)[0]? = some (some m0) := by
      rw [getElem?_of_getD _ 0 (rawSeries_length_pos o rest step), hm0]
    rcases ffillVal_spec (rawSeries (o :: rest) step) k none hk with
      ⟨hall, _⟩ | ⟨j, w, hj, hjv, hnone, hval⟩
    · exact absurd (hall 0 (Nat.zero_le k)) (by rw [hraw0]; simp)
    · have hjk : j ≠ k := by
        intro h
        subst h
        rw [hjv] at hrawk
        simp at hrawk
      have hjk' : j < k := lt_of_le_of_ne hj hjk
      have hjlt : j < (rawSeries (o :: rest) step).length := lt_trans hjk' hk
      have hbmj : bucketMean (o :: rest) o.1 step (j : Int) = some w :=
        Option.some.inj ((rawSeries_getElem o rest step j hjlt).symm.trans hjv)
      obtain ⟨hjne, hjmean⟩ := bucketMean_some_mean hstep _ _ _ _ hbmj
      refine ⟨j, w, hjk', hjne, ?_, hjmean, ?_⟩
      · intro i hi1 hi2
        have hilt : i < (rawSeries (o :: rest) step).length := lt_of_le_of_lt hi2 hk
        have hbmi := Option.some.inj
          ((rawSeries_getElem o rest step i hilt).symm.trans (hnone i hi1 hi2))
        exact (bucketMean_none_iff hstep _ _ _).mp hbmi
      · rw [resample_df_getElem o rest step "ffill" k hk, if_pos rfl,
          ffill_getElem _ k hk, hval]
        rfl
  · -- linear interpolation
    intro hmeth k hk hempty
    subst hmeth
    have hlen := rawSeries_length o rest step
    have hbm_none : bucketMean (o :: rest) o.1 step (k : Int) = none :=
      (bucketMean_none_iff hstep _ _ _).mpr hempty
    have hgdk : (rawSeries (o :: rest) step).getD k none = none := by
      rw [rawSeries_getD o rest step k hk, hbm_none]
    obtain ⟨m0, hm0⟩ := rawSeries_zero_isSome o rest step
    have hsorted' : ∀ b ∈ rest, o.1 ≤ b.1 := (List.pairwise_cons.mp hsorted).1
    obtain ⟨mK, hmK⟩ := rawSeries_last_isSome o rest step hstep hsorted'
    have hkK : k < (rawSeries (o :: rest) step).length - 1 := by
      rcases Nat.lt_or_ge k ((rawSeries (o :: rest) step).length - 1) with h | h
      · exact h
      · exfalso
        have hkeq : k = (rawSeries (o :: rest) step).length - 1 := by omega
        rw [← hkeq] at hmK
        rw [hgdk] at hmK
        simp at hmK
    rcases prevValid_spec (rawSeries (o :: rest) step) k with
      ⟨_, hall⟩ | ⟨a, va, hpv, hak, hga, hbetween⟩
    · exact absurd (hall 0 (Nat.zero_le k)) (by rw [hm0]; simp)
    · have hak' : a ≠ k := by
        intro h
        subst h
        rw [hga] at hgdk
        simp at hgdk
      have haklt : a < k := lt_of_le_of_ne hak hak'
      rcases firstSomeFrom_spec (rawSeries (o :: rest) step)
          ((rawSeries (o :: rest) step).length - (k + 1)) (k + 1) with
        ⟨_, hallafter⟩ | ⟨b, vb, hfs, hbge, hblt, hgb, hbefore⟩
      · exfalso
        have hKrange := hallafter ((rawSeries (o :: rest) step).length - 1)
          (by omega) (by omega)
        rw [hKrange] at hmK
        simp at hmK
      · have hblen : b < (rawSeries (o :: rest) step).length := by omega
        have hbma : bucketMean (o :: rest) o.1 step (a : Int) = some va := by
          rw [← rawSeries_getD o rest step a (by omega)]
          exact hga
        have hbmb : bucketMean (o :: rest) o.1 step (b : Int) = some vb := by
          rw [← rawSeries_getD o rest step b hblen]
          exact hgb
        obtain ⟨hane, hamean⟩ := bucketMean_some_mean hstep _ _ _ _ hbma
        obtain ⟨hbne, hbmean⟩ := bucketMean_some_mean hstep _ _ _ _ hbmb
        refine ⟨a, b, va, vb, haklt, by omega, hblen, hane, hamean, hbne, hbmean,
          ?_, ?_⟩
        · intro i hi1 hi2
          have hilen : i < (rawSeries (o :: rest) step).length := lt_trans hi2 hblen
          rcases le_or_lt i k with h | h
          · have := hbetween i hi1 h
            rw [rawSeries_getD o rest step i hilen] at this
            exact (bucketMean_none_iff hstep _ _ _).mp this
          · have := hbefore i (by omega) hi2
            rw [rawSeries_getD o rest step i hilen] at this
            exact (bucketMean_none_iff hstep _ _ _).mp this
        · rw [resample_df_getElem o rest step "linear" k hk,
            if_neg (by decide), if_pos rfl, interpolate_getElem _ k hk, hgdk,
            hpv, nextValid_eq, hfs]
          rfl

theorem raw_ex : rawSeries [(0, 2/5), (3600, 3/5)] 1800 = [some (2/5), none, some (3/5)] := by
  rw [rawSeries_cons]
  norm_num [List.getLastD_cons, List.getLastD, bucketMean, bucketIndex,
    List.range_succ, List.filter_cons, List.filter_nil,
    show ((3600:Int)).fdiv 1800 = 2 from by decide,
    show ((0:Int)).fdiv 1800 = 0 from by decide,
    show ((2:Int)).toNat = 2 from rfl]

theorem ffill_ex : resample_df [(0, 2/5), (3600, 3/5)] 1800 "ffill" =
    [(0, some (2/5)), (1800, some (2/5)), (3600, some (3/5))] := by
  rw [resample_df_cons, raw_ex]
  norm_num [ffill, ffillAux, List.range_succ, List.zipWith]

theorem linear_ex : resample_df [(0, 2/5), (3600, 3/5)] 1800 "linear" =
    [(0, some (2/5)), (1800, some (1/2)), (3600, some (3/5))] := by
  rw [resample_df_cons, raw_ex]
  norm_num [interpolate, prevValid, nextValid, firstSomeFrom, List.range_succ,
    List.zipWith, List.getD]

/-- Witness for C4: the spec's example.  Observations `[(0, 0.4), (3600, 0.6)]`
with `gridStep = 1800` yield values `0.4, 0.4, 0.6` at `t = 0, 1800, 3600`
under forward fill and `0.5` at `t = 1800` under linear interpolation; the
general theorem applies at this input (giving the bucket mean at grid
point 0). -/
theorem resample_df_correct_witness :
    resample_df [(0, 2/5), (3600, 3/5)] 1800 "ffill" =
      [(0, some (2/5)), (1800, some (2/5)), (3600, some (3/5))] ∧
    resample_df [(0, 2/5), (3600, 3/5)] 1800 "linear" =
      [(0, some (2/5)), (1800, some (1/2)), (3600, some (3/5))] ∧
    (resample_df [(0, 2/5), (3600, 3/5)] 1800 "ffill")[0]? =
      some (0, some (meanList (intervalObs [(0, 2/5), (3600, 3/5)] 0 1800))) :=
  ⟨ffill_ex, linear_ex,
    (resample_df_correct (0, 2/5) [(3600, 3/5)] 1800 "ffill"
      (by decide) (by decide)).1 0 (by decide) (by decide)⟩

theorem range_filter_beq (n k : Nat) :
    (List.range n).filter (fun i => i == k) = if k < n then [k] else [] := by
  induction n with
  | zero => simp
  | succ m ih =>
    rw [List.range_succ, List.filter_append, ih]
    by_cases h : k < m
    · rw [if_pos h, if_pos (by omega)]
      have hne : (m == k) = false := by simp; omega
      simp [List.filter_cons, hne]
    · rw [if_neg h]
      by_cases h2 : k = m
      · subst h2
        simp [List.filter_cons]
      · have hne : (m == k) = false := by simp; omega
        rw [if_neg (by omega)]
        simp [List.filter_cons, hne]

theorem ffillAux_of_forall_ne (prev : Option ℚ) (l : List (Option ℚ))
    (h : ∀ x ∈ l, x ≠ none) : ffillAux prev l = l := by
  induction l generalizing prev with
  | nil => rfl
  | cons x rest ih =>
    cases x with
    | none => exact absurd rfl (h none (by simp))
    | some w =>
      rw [show ffillAux prev (some w :: rest) = some w :: ffillAux (some w) rest from rfl,
        ih (some w) (fun x hx => h x (by simp [hx]))]

theorem interpolate_of_forall_ne (l : List (Option ℚ))
    (h : ∀ x ∈ l, x ≠ none) : interpolate l = l := by
  apply List.ext_getElem?
  intro i
  by_cases hi : i < l.length
  · rw [interpolate_getElem l i hi]
    obtain ⟨x, hx⟩ : ∃ x, l[i]? = some x := ⟨_, List.getElem?_eq_getElem hi⟩
    have hxne := h x (List.getElem?_mem hx)
    obtain ⟨w, rfl⟩ : ∃ w, x = some w := by
      cases x with
      | none => exact absurd rfl hxne
      | some w => exact ⟨w, rfl⟩
    have hgd : l.getD i none = some w := by
      rw [List.getD_eq_getElem?_getD, hx]
      rfl
    rw [hgd, hx]
  · have h1 : (interpolate l)[i]? = none :=
      List.getElem?_eq_none (by rw [interpolate_length]; omega)
    have h2 : l[i]? = none := List.getElem?_eq_none (by omega)
    rw [h1, h2]

theorem getLastD_map_range {α : Type} (g : Nat → α) (m : Nat) (d : α) :
    ((List.range m).map g).getLastD d = if m = 0 then d else g (m - 1) := by
  cases m with
  | zero => simp [List.getLastD]
  | succ j =>
    rw [List.range_succ, List.map_append]
    simp [List.getLastD_concat]

/-- C8. Resampling an observation sequence that already lies exactly on
the output grid (one observation per grid point, no missing buckets) is the
identity transform on the `(timestamp, value)` pairs, under any fill
method. -/
theorem resample_df_on_grid_id (t0 step : Int) (v : Nat → ℚ) (n : Nat)
    (method : String) (hn : 0 < n) (hstep : 0 < step) :
    resample_df ((List.range n).map (fun (k : Nat) => (t0 + step * (k : Int), v k)))
        step method =
      (List.range n).map (fun (k : Nat) => (t0 + step * (k : Int), some (v k))) := by
  obtain ⟨m, rfl⟩ : ∃ m, n = m + 1 := ⟨n - 1, by omega⟩
  -- every bucket filter picks exactly the observation on its grid point
  have hfilter : ∀ j : Nat, j < m + 1 →
      ((List.range (m + 1)).map (fun (k : Nat) => (t0 + step * (k : Int), v k))).filter
        (fun p => bucketIndex (t0 + step * ((0 : Nat) : Int)) step p.1 == (j : Int)) =
      [(t0 + step * (j : Int), v j)] := by
    intro j hj
    rw [List.filter_map]
    have hpred : ∀ i ∈ List.range (m + 1),
        ((fun p => bucketIndex (t0 + step * ((0 : Nat) : Int)) step p.1 == (j : Int)) ∘
          (fun (k : Nat) => (t0 + step * (k : Int), v k))) i = (i == j) := by
      intro i _
      simp only [Function.comp_apply]
      have hbi : bucketIndex (t0 + step * ((0 : Nat) : Int)) step (t0 + step * (i : Int)) =
          (i : Int) := by
        unfold bucketIndex
        have hd : t0 + step * (i : Int) - (t0 + step * ((0 : Nat) : Int)) =
            step * (i : Int) := by
          push_cast
          ring
        rw [hd, Int.mul_fdiv_cancel_left _ (by omega : step ≠ 0)]
      rw [hbi, Bool.eq_iff_iff]
      simp
    rw [List.filter_congr hpred, range_filter_beq, if_pos hj, List.map_cons, List.map_nil]
  have hbm : ∀ j : Nat, j < m + 1 →
      bucketMean ((List.range (m + 1)).map (fun (k : Nat) => (t0 + step * (k : Int), v k)))
        (t0 + step * ((0 : Nat) : Int)) step (j : Int) = some (v j) := by
    intro j hj
    unfold bucketMean
    rw [hfilter j hj]
    simp
  have hobs : (List.range (m + 1)).map (fun (k : Nat) => (t0 + step * (k : Int), v k)) =
      (t0 + step * ((0 : Nat) : Int), v 0) ::
        (List.range m).map (fun (k : Nat) => (t0 + step * ((k + 1 : Nat) : Int), v (k + 1))) := by
    rw [List.range_succ_eq_map, List.map_cons, List.map_map]
    rfl
  rw [hobs] at hbm ⊢
  -- the grid has exactly m + 1 points
  have hK : ((((List.range m).map
        (fun (k : Nat) => (t0 + step * ((k + 1 : Nat) : Int), v (k + 1)))).getLastD
          (t0 + step * ((0 : Nat) : Int), v 0)).1 -
        (t0 + step * ((0 : Nat) : Int), v 0).1).fdiv step = (m : Int) := by
    rw [getLastD_map_range]
    by_cases hm : m = 0
    · subst hm
      simp [Int.zero_fdiv]
    · rw [if_neg hm]
      have hd : (t0 + step * ((m - 1 + 1 : Nat) : Int), v (m - 1 + 1)).1 -
          (t0 + step * ((0 : Nat) : Int), v 0).1 = step * (m : Int) := by
        have hcast : ((m - 1 + 1 : Nat) : Int) = (m : Int) := by omega
        simp only [hcast]
        push_cast
        ring
      rw [hd, Int.mul_fdiv_cancel_left _ (by omega : step ≠ 0)]
  have hraw : rawSeries ((t0 + step * ((0 : Nat) : Int), v 0) ::
      (List.range m).map (fun (k : Nat) => (t0 + step * ((k + 1 : Nat) : Int), v (k + 1)))) step =
      (List.range (m + 1)).map (fun (j : Nat) => some (v j)) := by
    rw [rawSeries_cons, hK]
    have htoNat : ((m : Int)).toNat = m := by omega
    rw [htoNat]
    exact List.map_congr_left (fun j hj => hbm j (by simpa using hj))
  have hall : ∀ x ∈ (List.range (m + 1)).map (fun (j : Nat) => some (v j)), x ≠ none := by
    intro x hx
    rw [List.mem_map] at hx
    obtain ⟨j, _, rfl⟩ := hx
    simp
  rw [resample_df_cons, hraw]
  have hfill : (if method = "ffill" then
        ffill ((List.range (m + 1)).map (fun (j : Nat) => some (v j)))
      else if method = "linear" then
        interpolate ((List.range (m + 1)).map (fun (j : Nat) => some (v j)))
      else (List.range (m + 1)).map (fun (j : Nat) => some (v j))) =
      (List.range (m + 1)).map (fun (j : Nat) => some (v j)) := by
    split_ifs with h1 h2
    · exact ffillAux_of_forall_ne none _ hall
    · exact interpolate_of_forall_ne _ hall
    · rfl
  rw [hfill, List.length_map, List.length_range, List.zipWith_map_right,
    List.zipWith_same]
  exact List.map_congr_left (fun j hj => by simp)

/-- Witness for C8 at the on-grid series `[(100, 1/2), (1100, 1/3)]` with
`gridStep = 1000` under linear interpolation. -/
theorem resample_df_on_grid_id_witness :
    resample_df ((List.range 2).map (fun (k : Nat) =>
        ((100 : Int) + 1000 * (k : Int), if k = 0 then (1/2 : ℚ) else 1/3))) 1000 "linear" =
      (List.range 2).map (fun (k : Nat) =>
        ((100 : Int) + 1000 * (k : Int), some (if k = 0 then (1/2 : ℚ) else 1/3))) :=
  resample_df_on_grid_id 100 1000 (fun k => if k = 0 then (1/2 : ℚ) else 1/3) 2 "linear"
    (by decide) (by decide)

theorem resample_df_length (o : Int × ℚ) (rest : List (Int × ℚ)) (step : Int)
    (method : String) :
    (resample_df (o :: rest) step method).length = (rawSeries (o :: rest) step).length := by
  rw [resample_df_cons, List.length_zipWith, List.length_range]
  split_ifs with h1 h2
  · rw [ffill_length]; exact min_self _
  · rw [interpolate_length]; exact min_self _
  · exact min_self _

theorem resample_df_fst (o : Int × ℚ) (rest : List (Int × ℚ)) (step : Int)
    (method : String) (k : Nat) (hk : k < (rawSeries (o :: rest) step).length) :
    ∃ val, (resample_df (o :: rest) step method)[k]? =
      some (o.1 + step * (k : Int), val) := by
  rw [resample_df_getElem o rest step method k hk]
  have hlen : (if method = "ffill" then ffill (rawSeries (o :: rest) step)
      else if method = "linear" then interpolate (rawSeries (o :: rest) step)
      else rawSeries (o :: rest) step).length = (rawSeries (o :: rest) step).length := by
    split_ifs with h1 h2
    · exact ffill_length _
    · exact interpolate_length _
    · rfl
  obtain ⟨val, hval⟩ : ∃ val,
      (if method = "ffill" then ffill (rawSeries (o :: rest) step)
       else if method = "linear" then interpolate (rawSeries (o :: rest) step)
       else rawSeries (o :: rest) step)[k]? = some val := by
    rw [List.getElem?_eq_getElem (by omega)]
    exact ⟨_, rfl⟩
  rw [hval]
  exact ⟨val, rfl⟩

/-- C9. For every non-empty observation list and positive step, the
`elapsed_hours` annotation of the resampler output equals
`(gridPoint − anchor)/3600` with the anchor being the first output
timestamp (= the first observation's timestamp): entry `k` is
`step·k/3600`, the first entry is `0`, every entry is `≥ 0`, and the
sequence is monotonically non-decreasing. -/
theorem elapsed_hours_spec (o : Int × ℚ) (rest : List (Int × ℚ)) (step : Int)
    (method : String) (hstep : 0 < step) :
    elapsed_hours (resample_df (o :: rest) step method) =
      (resample_df (o :: rest) step method).map
        (fun p => ((p.1 - o.1 : Int) : ℚ) / 3600) ∧
    (elapsed_hours (resample_df (o :: rest) step method)).head? = some 0 ∧
    (∀ k, k < (resample_df (o :: rest) step method).length →
      (elapsed_hours (resample_df (o :: rest) step method))[k]? =
        some (((step * (k : Int) : Int) : ℚ) / 3600)) ∧
    (∀ x ∈ elapsed_hours (resample_df (o :: rest) step method), 0 ≤ x) ∧
    List.Chain' (fun a b => a ≤ b) (elapsed_hours (resample_df (o :: rest) step method)) := by
  have hlen := resample_df_length o rest step method
  have hpos : 0 < (resample_df (o :: rest) step method).length := by
    rw [hlen]; exact rawSeries_length_pos o rest step
  obtain ⟨v0, hv0⟩ := resample_df_fst o rest step method 0 (by rw [← hlen]; exact hpos)
  obtain ⟨p0, tail, hL⟩ : ∃ p0 tail,
      resample_df (o :: rest) step method = p0 :: tail := by
    cases h : resample_df (o :: rest) step method with
    | nil => rw [h] at hpos; simp at hpos
    | cons a b => exact ⟨a, b, rfl⟩
  have hp01 : p0.1 = o.1 := by
    rw [hL, List.getElem?_cons_zero] at hv0
    have := Option.some.inj hv0
    rw [this]
    simp
  have hmap : elapsed_hours (resample_df (o :: rest) step method) =
      (resample_df (o :: rest) step method).map
        (fun p => ((p.1 - o.1 : Int) : ℚ) / 3600) := by
    rw [hL]
    show (p0 :: tail).map (fun p => ((p.1 - p0.1 : Int) : ℚ) / 3600) =
      (p0 :: tail).map (fun p => ((p.1 - o.1 : Int) : ℚ) / 3600)
    rw [hp01]
  have helen : (elapsed_hours (resample_df (o :: rest) step method)).length =
      (resample_df (o :: rest) step method).length := by
    rw [hmap, List.length_map]
  have hget : ∀ k, k < (resample_df (o :: rest) step method).length →
      (elapsed_hours (resample_df (o :: rest) step method))[k]? =
        some (((step * (k : Int) : Int) : ℚ) / 3600) := by
    intro k hk
    obtain ⟨val, hval⟩ := resample_df_fst o rest step method k (by rwa [← hlen])
    rw [hmap, List.getElem?_map, hval]
    simp only [Option.map_some']
    congr 2
    ring_nf
  refine ⟨hmap, ?_, hget, ?_, ?_⟩
  · have h0 := hget 0 hpos
    rw [List.head?_eq_getElem?, h0]
    norm_num
  · intro x hx
    rw [List.mem_iff_getElem?] at hx
    obtain ⟨i, hi⟩ := hx
    have hilt : i < (resample_df (o :: rest) step method).length := by
      have := (List.getElem?_eq_some.mp hi).1
      rwa [helen] at this
    have hval := hget i hilt
    rw [hval] at hi
    have hx_eq := Option.some.inj hi
    rw [← hx_eq]
    have hnum : (0 : ℚ) ≤ ((step * (i : Int) : Int) : ℚ) := by
      have h1 : (0 : Int) ≤ step * (i : Int) :=
        mul_nonneg (le_of_lt hstep) (Int.natCast_nonneg i)
      exact_mod_cast h1
    positivity
  · rw [List.chain'_iff_get]
    intro i hi
    have hi1 : i < (resample_df (o :: rest) step method).length := by omega
    have hi2 : i + 1 < (resample_df (o :: rest) step method).length := by omega
    have hg1 := hget i hi1
    have hg2 := hget (i + 1) hi2
    have he1 : (elapsed_hours (resample_df (o :: rest) step method)).get ⟨i, by omega⟩ =
        ((step * (i : Int) : Int) : ℚ) / 3600 := by
      rw [List.get_eq_getElem]
      have := List.getElem?_eq_getElem
        (l := elapsed_hours (resample_df (o :: rest) step method)) (n := i) (by omega)
      rw [this] at hg1
      exact Option.some.inj hg1
    have he2 : (elapsed_hours (resample_df (o :: rest) step method)).get
        ⟨i + 1, by omega⟩ = ((step * ((i + 1 : Nat) : Int) : Int) : ℚ) / 3600 := by
      rw [List.get_eq_getElem]
      have := List.getElem?_eq_getElem
        (l := elapsed_hours (resample_df (o :: rest) step method)) (n := i + 1) (by omega)
      rw [this] at hg2
      exact Option.some.inj hg2
    rw [he1, he2]
    have hmul : step * (i : Int) ≤ step * ((i + 1 : Nat) : Int) := by
      apply mul_le_mul_of_nonneg_left _ (le_of_lt hstep)
      exact_mod_cast Nat.le_succ i
    have hcast : ((step * (i : Int) : Int) : ℚ) ≤ ((step * ((i + 1 : Nat) : Int) : Int) : ℚ) := by
      exact_mod_cast hmul
    gcongr

/-- Witness for C9 at the linear-resampled spec example: the elapsed-hours
column is `[0, 0.5, 1]`, starts at `0`, is non-negative and
non-decreasing. -/
theorem elapsed_hours_spec_witness :
    elapsed_hours (resample_df [(0, 2/5), (3600, 3/5)] 1800 "linear") = [0, 1/2, 1] ∧
    ((elapsed_hours (resample_df [(0, 2/5), (3600, 3/5)] 1800 "linear")).head? = some 0 ∧
      (∀ x ∈ elapsed_hours (resample_df [(0, 2/5), (3600, 3/5)] 1800 "linear"), 0 ≤ x) ∧
      List.Chain' (fun a b => a ≤ b)
        (elapsed_hours (resample_df [(0, 2/5), (3600, 3/5)] 1800 "linear"))) :=
  ⟨by rw [linear_ex]; norm_num [elapsed_hours],
    (fun h => ⟨h.2.1, h.2.2.2.1, h.2.2.2.2⟩)
      (elapsed_hours_spec (0, 2/5) [(3600, 3/5)] 1800 "linear" (by decide))⟩

/-! ## `summarize_event` and `_as_list` from `polymarket_btc/api.py`

Python:
```
def _as_list(val):
    if isinstance(val, list):
        return val
    if val is None:
        return []
    try:
        return json.loads(val)
    except Exception:
        return []

def summarize_event(event):
    markets = event.get("markets", []) or []
    mkt = markets[0] if markets else {}
    outcomes = _as_list(mkt.get("outcomes"))
    prices = _as_list(mkt.get("outcomePrices"))
    return {"slug": event.get("slug"), ..., "outcomes": outcomes, ...,
            "clobTokenIds": _as_list(mkt.get("clobTokenIds"))}
```
Python values are embedded as `PyVal` (`null` is Python `None`; a `float`
keeps its JSON lexeme — its numeric value only matters for truthiness).
`json.loads` is the external standard library; it is modelled by
`json_loads`, a recursive-descent parser for the JSON grammar plus
Python's `NaN`/`Infinity`/`-Infinity` extensions; `json.loads` applied to
a non-`str` value raises `TypeError`, which `_as_list` swallows into `[]`.
Dynamic-typing errors are explicit: subscripting a non-sequence is
`TypeError`, `.get` on a non-dict is `AttributeError`, `d[0]` on a dict
with string keys is `KeyError`. -/

inductive PyVal where
  | null : PyVal
  | bool (b : Bool) : PyVal
  | int (n : Int) : PyVal
  | float (lit : String) : PyVal
  | str (s : String) : PyVal
  | list (items : List PyVal) : PyVal
  | dict (items : List (String × PyVal)) : PyVal

inductive PyErr where
  | typeError
  | attributeError
  | keyError
  | indexError
deriving DecidableEq, Repr

/-- `bool(float(lit))` is `False` exactly when the literal denotes zero
(every mantissa digit is `0`; `NaN`/`Infinity` are truthy). -/
def floatIsZero (lit : String) : Bool :=
  let body := (lit.toList.filter (fun c => c != '-')).takeWhile
    (fun c => c != 'e' && c != 'E')
  body.all (fun c => c == '0' || c == '.') && body.any (fun c => c == '0')

def isTruthy : PyVal → Bool
  | .null => false
  | .bool b => b
  | .int n => n != 0
  | .float lit => !(floatIsZero lit)
  | .str s => !(s.isEmpty)
  | .list l => !(l.isEmpty)
  | .dict d => !(d.isEmpty)

/-- Python `d.get(key, dflt)`; for duplicate keys the last binding wins,
as in a Python dict built left to right. -/
def dictGet (d : List (String × PyVal)) (key : String) (dflt : PyVal) : PyVal :=
  d.foldl (fun acc p => if p.1 = key then p.2 else acc) dflt

/-- Python `x[0]`. -/
def subscript0 : PyVal → Except PyErr PyVal
  | .list [] => .error .indexError
  | .list (x :: _) => .ok x
  | .str s =>
    match s.toList with
    | [] => .error .indexError
    | c :: _ => .ok (.str (String.mk [c]))
  | .dict _ => .error .keyError
  | _ => .error .typeError

/-- Python `x.get(key)`: only dicts have `.get`. -/
def pyGet (v : PyVal) (key : String) : Except PyErr PyVal :=
  match v with
  | .dict d => .ok (dictGet d key .null)
  | _ => .error .attributeError

/-- Python `a or b`. -/
def pyOr (a b : PyVal) : PyVal := if isTruthy a then a else b

def isJsonWs (c : Char) : Bool := c == ' ' || c == '\t' || c == '\n' || c == '\r'

def skipWs : List Char → List Char
  | [] => []
  | c :: rest => if isJsonWs c then skipWs rest else c :: rest

def isHexDigit (c : Char) : Bool :=
  c.isDigit || ('a' ≤ c && c ≤ 'f') || ('A' ≤ c && c ≤ 'F')

/-- JSON string body (after the opening quote).  The decoded characters of
escapes are irrelevant downstream, only validity matters. -/
def lexString (acc : List Char) : List Char → Option (String × List Char)
  | [] => none
  | '\"' :: rest => some (String.mk acc.reverse, rest)
  | '\\' :: rest =>
    match rest with
    | 'u' :: h1 :: h2 :: h3 :: h4 :: rest2 =>
      if isHexDigit h1 && isHexDigit h2 && isHexDigit h3 && isHexDigit h4 then
        lexString ('u' :: acc) rest2
      else none
    | c :: rest2 =>
      if c == '\"' || c == '\\' || c == '/' || c == 'b' || c == 'f' ||
          c == 'n' || c == 'r' || c == 't' then
        lexString (c :: acc) rest2
      else none
    | [] => none
  | c :: rest =>
    if c.toNat < 32 then none else lexString (c :: acc) rest

def lexDigits : List Char → List Char × List Char
  | [] => ([], [])
  | c :: rest =>
    if c.isDigit then
      match lexDigits rest with
      | (ds, r) => (c :: ds, r)
    else ([], c :: rest)

def digitsToNat (ds : List Char) : Nat :=
  ds.foldl (fun n c => n * 10 + (c.toNat - 48)) 0

def lexExpDigits (neg : Bool) (intPart fracPart : List Char) (e : Char)
    (cs : List Char) : Option (PyVal × List Char) :=
  let (sgn, cs2) :=
    match cs with
    | '+' :: r => (['+'], r)
    | '-' :: r => (['-'], r)
    | _ => (([] : List Char), cs)
  match lexDigits cs2 with
  | ([], _) => none
  | (es, r) =>
    some (.float (String.mk ((if neg then ['-'] else []) ++ intPart ++ fracPart ++
      e :: (sgn ++ es))), r)

def lexExpPart (neg : Bool) (intPart fracPart : List Char) (isFloat : Bool) :
    List Char → Option (PyVal × List Char)
  | 'e' :: r => lexExpDigits neg intPart fracPart 'e' r
  | 'E' :: r => lexExpDigits neg intPart fracPart 'E' r
  | r =>
    if isFloat then
      some (.float (String.mk ((if neg then ['-'] else []) ++ intPart ++ fracPart)), r)
    else
      some (.int ((if neg then -1 else 1) * (digitsToNat intPart : Int)), r)

/-- JSON number (int/frac/exp grammar; a leading zero may not be followed
by another digit). -/
def lexNumber (cs : List Char) : Option (PyVal × List Char) :=
  let (neg, cs1) :=
    match cs with
    | '-' :: rest => (true, rest)
    | _ => (false, cs)
  match cs1 with
  | [] => none
  | c :: rest =>
    if !c.isDigit then none
    else if c == '0' && (match rest with | d :: _ => d.isDigit | [] => false) then none
    else
      match lexDigits rest with
      | (ds, r1) =>
        match r1 with
        | '.' :: r2 =>
          (match lexDigits r2 with
           | ([], _) => none
           | (fs, r3) => lexExpPart neg (c :: ds) ('.' :: fs) true r3)
        | _ => lexExpPart neg (c :: ds) [] false r1

def parseArrayAux (pv : List Char → Option (PyVal × List Char)) :
    Nat → List PyVal → List Char → Option (List PyVal × List Char)
  | 0, _, _ => none
  | fuel + 1, acc, cs =>
    match pv cs with
    | none => none
    | some (v, r) =>
      match skipWs r with
      | ',' :: r2 => parseArrayAux pv fuel (v :: acc) r2
      | ']' :: r2 => some ((v :: acc).reverse, r2)
      | _ => none

def parseObjAux (pv : List Char → Option (PyVal × List Char)) :
    Nat → List (String × PyVal) → List Char → Option (List (String × PyVal) × List Char)
  | 0, _, _ => none
  | fuel + 1, acc, cs =>
    match skipWs cs with
    | '\"' :: r =>
      (match lexString [] r with
       | none => none
       | some (key, r2) =>
         match skipWs r2 with
         | ':' :: r3 =>
           (match pv r3 with
            | none => none
            | some (v, r4) =>
              match skipWs r4 with
              | ',' :: r5 => parseObjAux pv fuel ((key, v) :: acc) r5
              | '\x7d' :: r5 => some (((key, v) :: acc).reverse, r5)
              | _ => none)
         | _ => none)
    | _ => none

def parseValue : Nat → List Char → Option (PyVal × List Char)
  | 0, _ => none
  | fuel + 1, cs =>
    match skipWs cs with
    | 'n' :: 'u' :: 'l' :: 'l' :: r => some (.null, r)
    | 't' :: 'r' :: 'u' :: 'e' :: r => some (.bool true, r)
    | 'f' :: 'a' :: 'l' :: 's' :: 'e' :: r => some (.bool false, r)
    | 'N' :: 'a' :: 'N' :: r => some (.float "NaN", r)
    | 'I' :: 'n' :: 'f' :: 'i' :: 'n' :: 'i' :: 't' :: 'y' :: r =>
      some (.float "Infinity", r)
    | '-' :: 'I' :: 'n' :: 'f' :: 'i' :: 'n' :: 'i' :: 't' :: 'y' :: r =>
      some (.float "-Infinity", r)
    | '\"' :: r =>
      (match lexString [] r with
       | none => none
       | some (s, r2) => some (.str s, r2))
    | '[' :: r =>
      (match skipWs r with
       | ']' :: r2 => some (.list [], r2)
       | _ =>
         match parseArrayAux (parseValue fuel) (r.length + 1) [] r with
         | none => none
         | some (items, r2) => some (.list items, r2))
    | '\x7b' :: r =>
      (match skipWs r with
       | '\x7d' :: r2 => some (.dict [], r2)
       | _ =>
         match parseObjAux (parseValue fuel) (r.length + 1) [] r with
         | none => none
         | some (items, r2) => some (.dict items, r2))
    | c :: r =>
      if c == '-' || c.isDigit then lexNumber (c :: r) else none
    | [] => none

/-- Model of Python `json.loads` (JSON grammar plus the `NaN`, `Infinity`,
`-Infinity` extensions `json.loads` accepts by default). -/
def json_loads (s : String) : Option PyVal :=
  match parseValue (s.length + 1) s.toList with
  | some (v, rest) => if (skipWs rest).isEmpty then some v else none
  | none => none

def _as_list (val : PyVal) : PyVal :=
  match val with
  | .list l => .list l
  | .null => .list []
  | .str s =>
    (match json_loads s with
     | some v => v
     | none => .list [])
  | _ => .list []

structure Summary where
  slug : PyVal
  endDate : PyVal
  volume : PyVal
  volume24hr : PyVal
  liquidity : PyVal
  outcomes : PyVal
  outcomePrices : PyVal
  bestBid : PyVal
  bestAsk : PyVal
  lastTradePrice : PyVal
  oneDayPriceChange : PyVal
  oneHourPriceChange : PyVal
  clobTokenIds : PyVal

/-- The tail of `summarize_event` after `mkt` is selected: every read of
`mkt`/`event` and the result dict, in the source's evaluation order. -/
def summarizeFields (event : List (String × PyVal)) (mkt : PyVal) :
    Except PyErr Summary := do
  let outcomes := _as_list (← pyGet mkt "outcomes")
  let prices := _as_list (← pyGet mkt "outcomePrices")
  let liquidity := pyOr (← pyGet mkt "liquidity") (dictGet event "liquidity" .null)
  let bestBid ← pyGet mkt "bestBid"
  let bestAsk ← pyGet mkt "bestAsk"
  let lastTradePrice ← pyGet mkt "lastTradePrice"
  let oneDayPriceChange ← pyGet mkt "oneDayPriceChange"
  let oneHourPriceChange ← pyGet mkt "oneHourPriceChange"
  let clobTokenIds := _as_list (← pyGet mkt "clobTokenIds")
  pure {
    slug := dictGet event "slug" .null
    endDate := dictGet event "endDate" .null
    volume := dictGet event "volume" .null
    volume24hr := dictGet event "volume24hr" .null
    liquidity := liquidity
    outcomes := outcomes
    outcomePrices := prices
    bestBid := bestBid
    bestAsk := bestAsk
    lastTradePrice := lastTradePrice
    oneDayPriceChange := oneDayPriceChange
    oneHourPriceChange := oneHourPriceChange
    clobTokenIds := clobTokenIds }

def summarize_event (event : List (String × PyVal)) : Except PyErr Summary := do
  let markets := pyOr (dictGet event "markets" (.list [])) (.list [])
  let mkt ← if isTruthy markets then subscript0 markets else pure (.dict [])
  summarizeFields event mkt

def isListV : PyVal → Bool
  | .list _ => true
  | _ => false

/-- The event shapes on which `summarize_event` cannot raise: the `markets`
payload is falsy/absent, or is a list whose first element is a dict. -/
def marketsGuard (event : List (String × PyVal)) : Bool :=
  if isTruthy (pyOr (dictGet event "markets" (.list [])) (.list [])) then
    match pyOr (dictGet event "markets" (.list [])) (.list []) with
    | .list (.dict _ :: _) => true
    | _ => false
  else true

/-- The `mkt` value `summarize_event` selects. -/
def mktOf (event : List (String × PyVal)) : PyVal :=
  if isTruthy (pyOr (dictGet event "markets" (.list [])) (.list [])) then
    match pyOr (dictGet event "markets" (.list [])) (.list []) with
    | .list (m :: _) => m
    | _ => .null
  else .dict []

/-- The raw payload `mkt.get(key)` reads (under the guard). -/
def mktField (event : List (String × PyVal)) (key : String) : PyVal :=
  match mktOf event with
  | .dict d => dictGet d key .null
  | _ => .null

/-- How `_as_list` relates a raw payload to the produced field: a list is
passed through, `None` and a non-JSON string give `[]`, a JSON string gives
its parsed value (which need not be a list), and any other value gives
`[]`. -/
def fieldSpec (raw out : PyVal) : Prop :=
  (∀ l, raw = .list l → out = .list l) ∧
  (raw = .null → out = .list []) ∧
  (∀ s, raw = .str s →
    (json_loads s = none → out = .list []) ∧
    (∀ j, json_loads s = some j → out = j)) ∧
  ((∀ l, raw ≠ .list l) → (∀ s, raw ≠ .str s) → raw ≠ .null → out = .list [])

theorem _as_list_spec (raw : PyVal) : fieldSpec raw (_as_list raw) := by
  unfold fieldSpec
  refine ⟨?_, ?_, ?_, ?_⟩
  · intro l hl
    subst hl
    rfl
  · intro h
    subst h
    rfl
  · intro s hs
    subst hs
    constructor
    · intro hj
      show (match json_loads s with | some v => v | none => .list []) = .list []
      rw [hj]
    · intro j hj
      show (match json_loads s with | some v => v | none => .list []) = j
      rw [hj]
  · intro h1 h2 h3
    cases raw with
    | null => exact absurd rfl h3
    | str s => exact absurd rfl (h2 s)
    | list l => exact absurd rfl (h1 l)
    | bool b => rfl
    | int n => rfl
    | float l => rfl
    | dict d => rfl

theorem summarizeFields_dict (event : List (String × PyVal))
    (d : List (String × PyVal)) :
    summarizeFields event (.dict d) = Except.ok {
      slug := dictGet event "slug" .null
      endDate := dictGet event "endDate" .null
      volume := dictGet event "volume" .null
      volume24hr := dictGet event "volume24hr" .null
      liquidity := pyOr (dictGet d "liquidity" .null) (dictGet event "liquidity" .null)
      outcomes := _as_list (dictGet d "outcomes" .null)
      outcomePrices := _as_list (dictGet d "outcomePrices" .null)
      bestBid := dictGet d "bestBid" .null
      bestAsk := dictGet d "bestAsk" .null
      lastTradePrice := dictGet d "lastTradePrice" .null
      oneDayPriceChange := dictGet d "oneDayPriceChange" .null
      oneHourPriceChange := dictGet d "oneHourPriceChange" .null
      clobTokenIds := _as_list (dictGet d "clobTokenIds" .null) } := rfl

theorem summarize_event_eq (event : List (String × PyVal)) :
    summarize_event event =
      if isTruthy (pyOr (dictGet event "markets" (.list [])) (.list []))
      then subscript0 (pyOr (dictGet event "markets" (.list [])) (.list [])) >>=
        (fun mkt => summarizeFields event mkt)
      else summarizeFields event (.dict []) := by rfl

/-- C10, counterexample. `summarize_event` can raise, and its list
fields are not always lists.  With `markets = 5` (truthy, not
subscriptable) the Python code raises `TypeError` at `markets[0]`.  With
`outcomes = "5"` (a string holding valid non-list JSON), `_as_list` returns
`json.loads("5") = 5`, so the summary's `outcomes` field is the integer
`5`, not a list. -/
theorem summarize_event_cex :
    summarize_event [("markets", PyVal.int 5)] = Except.error PyErr.typeError ∧
    summarize_event [("markets", PyVal.list [PyVal.dict [("outcomes", PyVal.str "5")]])] =
      Except.ok {
        slug := .null
        endDate := .null
        volume := .null
        volume24hr := .null
        liquidity := .null
        outcomes := PyVal.int 5
        outcomePrices := .list []
        bestBid := .null
        bestAsk := .null
        lastTradePrice := .null
        oneDayPriceChange := .null
        oneHourPriceChange := .null
        clobTokenIds := .list [] } ∧
    isListV (PyVal.int 5) = false :=
  ⟨rfl, rfl, rfl⟩

/-- C10, amended. For every event dictionary whose `markets` payload is
falsy/absent or a list with a dictionary as first element,
`summarize_event` returns a summary record and never raises, and each of
the `outcomes`, `outcomePrices` and `clobTokenIds` fields is `_as_list` of
the corresponding market payload: a list payload is passed through, a
missing/`None` payload or a string that is not valid JSON yields the empty
list, a string holding valid JSON yields its parsed value (which need not
be a list), and any other payload yields the empty list.  (Outside the
guard the code can raise, and a valid non-list JSON string payload makes
the field a non-list, as the counterexample shows.) -/
theorem summarize_event_safe (event : List (String × PyVal))
    (hguard : marketsGuard event = true) :
    ∃ s, summarize_event event = Except.ok s ∧
      fieldSpec (mktField event "outcomes") s.outcomes ∧
      fieldSpec (mktField event "outcomePrices") s.outcomePrices ∧
      fieldSpec (mktField event "clobTokenIds") s.clobTokenIds := by
  by_cases ht : isTruthy (pyOr (dictGet event "markets" (.list [])) (.list [])) = true
  · unfold marketsGuard at hguard
    rw [if_pos ht] at hguard
    cases hm : pyOr (dictGet event "markets" (.list [])) (.list []) with
    | list items =>
      cases items with
      | nil => rw [hm] at hguard; simp at hguard
      | cons m0 tail =>
        cases m0 with
        | dict d =>
          have hsum : summarize_event event = summarizeFields event (.dict d) := by
            rw [summarize_event_eq, if_pos ht, hm]
            rfl
          have hmkt : mktOf event = .dict d := by
            unfold mktOf
            rw [if_pos ht, hm]
          have hf : ∀ key, mktField event key = dictGet d key .null := by
            intro key
            unfold mktField
            rw [hmkt]
          refine ⟨_, by rw [hsum, summarizeFields_dict], ?_, ?_, ?_⟩ <;>
            · rw [hf]
              exact _as_list_spec _
        | null => rw [hm] at hguard; simp at hguard
        | bool b => rw [hm] at hguard; simp at hguard
        | int n => rw [hm] at hguard; simp at hguard
        | float l => rw [hm] at hguard; simp at hguard
        | str s => rw [hm] at hguard; simp at hguard
        | list l => rw [hm] at hguard; simp at hguard
    | null => rw [hm] at hguard; simp at hguard
    | bool b => rw [hm] at hguard; simp at hguard
    | int n => rw [hm] at hguard; simp at hguard
    | float l => rw [hm] at hguard; simp at hguard
    | str s => rw [hm] at hguard; simp at hguard
    | dict d => rw [hm] at hguard; simp at hguard
  · have hsum : summarize_event event = summarizeFields event (.dict []) := by
      rw [summarize_event_eq, if_neg ht]
    have hmkt : mktOf event = .dict [] := by
      unfold mktOf
      rw [if_neg ht]
    have hf : ∀ key, mktField event key = dictGet [] key .null := by
      intro key
      unfold mktField
      rw [hmkt]
    refine ⟨_, by rw [hsum, summarizeFields_dict], ?_, ?_, ?_⟩ <;>
      · rw [hf]
        exact _as_list_spec _

/-- A guarded event used as the witness input for the amended C10: one
market whose `outcomes` payload is a JSON list string and whose
`outcomePrices` payload is not valid JSON. -/
def exEventC10 : List (String × PyVal) :=
  [("slug", PyVal.str "bitcoin-up-or-down-on-march-1"),
   ("markets", PyVal.list [PyVal.dict
     [("outcomes", PyVal.str "[\"Up\", \"Down\"]"),
      ("outcomePrices", PyVal.str "not json")]])]

/-- Witness for the amended C10: on `exEventC10` the guard holds,
`summarize_event` returns a record (no error) whose `outcomes` is the
parsed list, whose `outcomePrices` is `[]` (invalid JSON), and whose
`clobTokenIds` is `[]` (missing payload); the general theorem applies. -/
theorem summarize_event_safe_witness :
    marketsGuard exEventC10 = true ∧
    summarize_event exEventC10 = Except.ok {
      slug := PyVal.str "bitcoin-up-or-down-on-march-1"
      endDate := .null
      volume := .null
      volume24hr := .null
      liquidity := .null
      outcomes := PyVal.list [PyVal.str "Up", PyVal.str "Down"]
      outcomePrices := PyVal.list []
      bestBid := .null
      bestAsk := .null
      lastTradePrice := .null
      oneDayPriceChange := .null
      oneHourPriceChange := .null
      clobTokenIds := PyVal.list [] } ∧
    (∃ s, summarize_event exEventC10 = Except.ok s ∧
      fieldSpec (mktField exEventC10 "outcomes") s.outcomes ∧
      fieldSpec (mktField exEventC10 "outcomePrices") s.outcomePrices ∧
      fieldSpec (mktField exEventC10 "clobTokenIds") s.clobTokenIds) :=
  ⟨rfl, rfl, summarize_event_safe exEventC10 rfl⟩
